import Mathlib

/-!
# go-map-match: a shallow embedding of `api/route.go` and `api/api.go`

The Go package `api` builds a road graph from an OpenStreetMap extract
(`ParseData`) and answers map-matching requests (`MapMatch`, `GetMatch`).

Modelling conventions.

* `float64` values are exact rationals (`ℚ`): rounding, underflow and overflow
  are not modelled.  The one float operation whose IEEE result is not a
  rational, the division `segmentDist / float64(way.MaxSpeed)` with a zero
  divisor, is modelled by the type `Weight`, which carries `+Inf`, `-Inf` and
  `NaN` next to the finite values.
* Go `int` is 64 bits wide (`strconv.IntSize = 64`).
* An OSM id is an `Int`.  The source renders ids with `strconv.FormatInt(_, 10)`
  before using them as map keys; that rendering is injective, so the keys are
  modelled by the ids themselves.
* A `*Node` is modelled by the id under which `nodesIndex` holds the node: every
  pointer stored in `way.Nodes` or in the R-tree was read from `nodesIndex`
  after ingestion, and `nodesIndex[node.ID] = node` is the only write to it.
* The libraries the package calls are parameters: the great-circle distance
  (`dist`), the R-tree nearest-neighbour query (`nn`), the shortest-path routine
  (`dijkstra`) and `strconv.ParseFloat` (`parseFloat`).
-/

namespace GoMapMatch

/-! ## Strings -/

/-- Go `strings.Replace(s, old, "", 1)` for a non-empty `old`: the first
occurrence of `old` is removed, the rest of the text is kept. -/
def removeFirst (old : List Char) : List Char → List Char
  | [] => []
  | c :: cs =>
    if old.isPrefixOf (c :: cs) then (c :: cs).drop old.length
    else c :: removeFirst old cs

/-- Loop of `strconv.Atoi` over the digits: `n = n*10 + (ch - '0')`, a syntax
error (`none`) at the first byte that is not a decimal digit. -/
def parseDigits (n : Nat) : List Char → Option Nat
  | [] => some n
  | ch :: rest =>
    if ch.isDigit then parseDigits (n * 10 + (ch.toNat - 48)) rest else none

/-- Largest magnitude a non-negative Go `int` holds, plus one (`1 << 63`). -/
def intCutoff : Nat := 2 ^ 63

/-- Go `strconv.Atoi` (standard library, modelled from its documentation): an
optional sign followed by one or more decimal digits; `none` stands for a
non-nil error, either a syntax error or a value outside the range of `int`. -/
def Atoi (s : String) : Option Int :=
  match s.data with
  | [] => none
  | '-' :: cs =>
    if cs.isEmpty then none
    else (parseDigits 0 cs).bind fun n =>
      if n ≤ intCutoff then some (-(n : Int)) else none
  | '+' :: cs =>
    if cs.isEmpty then none
    else (parseDigits 0 cs).bind fun n =>
      if n < intCutoff then some (n : Int) else none
  | cs =>
    (parseDigits 0 cs).bind fun n =>
      if n < intCutoff then some (n : Int) else none

/-- Go `strings.Split(s, sep)` for a one-byte separator: the pieces between the
separators, always at least one piece. -/
def splitOn (sep : Char) : List Char → List (List Char)
  | [] => [[]]
  | c :: cs =>
    if c = sep then [] :: splitOn sep cs
    else
      match splitOn sep cs with
      | [] => [[c]]
      | piece :: pieces => (c :: piece) :: pieces

/-- A loop that evaluates `f` on every element in order and stops with a panic
(`none`) at the first element on which `f` panics. -/
def mapOption {α β : Type} (f : α → Option β) : List α → Option (List β)
  | [] => some []
  | a :: rest =>
    match f a with
    | none => none
    | some b =>
      match mapOption f rest with
      | none => none
      | some bs => some (b :: bs)

/-! ## Data model -/

/-- A coordinate pair, `Point` of route.go. -/
structure Point where
  Lat : ℚ
  Lon : ℚ
deriving DecidableEq

/-- A Go `map[string]string` of OSM tags. -/
abbrev Tags := List (String × String)

/-- Go map index `tags[key]`: the empty string when the key is absent. -/
def tagValue (tags : Tags) (key : String) : String :=
  (tags.lookup key).getD ""

/-- Go `_, ok := tags[key]`. -/
def tagPresent (tags : Tags) (key : String) : Bool :=
  (tags.lookup key).isSome

/-- The struct `Node` of route.go; `Ways` holds the positions, in the global
`ways`, of the ways that reference the node. -/
structure Node where
  ID : Int
  Point : Point
  Tags : Tags
  Ways : List Nat
deriving DecidableEq

/-- The struct `Way` of route.go; `Nodes` holds the resolved node pointers. -/
structure Way where
  ID : Int
  NodeIDs : List Int
  Tags : Tags
  Nodes : List Int
  Dist : ℚ
  MaxSpeed : Int
deriving DecidableEq

/-- Tags accepted as drivable ways. -/
def VALID_WAYS : List String :=
  ["motorway", "trunk", "primary", "secondary", "tertiary",
   "residential", "service",
   "motorway_link", "trunk_link", "primary_link", "secondary_link",
   "tertiary_link"]

/-- Default speed (mph) per road type. -/
def WAY_SPEED : List (String × Int) :=
  [("motorway", 55), ("trunk", 55), ("primary", 35), ("secondary", 25),
   ("tertiary", 25), ("service", 15), ("residential", 25),
   ("motorway_link", 55), ("trunk_link", 55), ("primary_link", 35),
   ("secondary_link", 25), ("tertiary_link", 25)]

/-- The text `wayType` after `strings.Replace(wayType, " mph", "", 1)`. -/
def stripMph (wayType : String) : String :=
  String.mk (removeFirst " mph".data wayType.data)

/-- Source `getWaySpeed`: the parsed `maxspeed` when `Atoi` reports no error,
else the table entry of the way type, else 25. -/
def getWaySpeed (wayType waySpeed : String) : Int :=
  let wayType := stripMph wayType
  match Atoi waySpeed with
  | none =>
    match WAY_SPEED.lookup wayType with
    | none => 25
    | some speed => speed
  | some speed => speed

/-! ## Travel times and the road graph -/

/-- A `float64` edge weight: a finite value, or one of the IEEE results of a
division by zero. -/
inductive Weight where
  | fin (q : ℚ)
  | posInf
  | negInf
  | nan
deriving DecidableEq

/-- The comparison `w > 0` on `float64`. -/
def Weight.Positive : Weight → Prop
  | .fin q => 0 < q
  | .posInf => True
  | .negInf => False
  | .nan => False

instance : DecidablePred Weight.Positive := fun w =>
  match w with
  | .fin q => inferInstanceAs (Decidable (0 < q))
  | .posInf => isTrue trivial
  | .negInf => isFalse id
  | .nan => isFalse id

/-- The expression `segmentDist / float64(way.MaxSpeed)`. -/
def travelTime (segmentDist : ℚ) (MaxSpeed : Int) : Weight :=
  if MaxSpeed = 0 then
    if 0 < segmentDist then .posInf
    else if segmentDist < 0 then .negInf
    else .nan
  else .fin (segmentDist / (MaxSpeed : ℚ))

/-- A call the graph-building walk makes on `nodeGraph`. -/
inductive GraphOp where
  | addNode (id : Int)
  | addEdge (src dst : Int) (weight : Weight)
deriving DecidableEq

/-- The road graph `nodeGraph`: its vertex set and its weighted directed
edges. -/
structure Graph where
  nodes : Int → Bool
  edges : Int → Int → Option Weight

/-- The graph of `goraph.NewGraph()`. -/
def Graph.empty : Graph :=
  { nodes := fun _ => false, edges := fun _ _ => none }

/-- Modelled from the spec: the graph library is not part of the sources; the
edge upsert policy says that re-adding an existing vertex is a no-op and that
re-adding an existing edge replaces its weight. -/
def Graph.apply (g : Graph) : GraphOp → Graph
  | .addNode id => { g with nodes := fun v => if v = id then true else g.nodes v }
  | .addEdge src dst weight =>
    { g with edges := fun u v =>
        if u = src ∧ v = dst then some weight else g.edges u v }

/-- The graph after a sequence of calls. -/
def Graph.applyAll (g : Graph) (ops : List GraphOp) : Graph :=
  ops.foldl Graph.apply g

/-- The directed edges a sequence of calls adds. -/
def emittedEdges : List GraphOp → List (Int × Int × Weight)
  | [] => []
  | .addNode _ :: ops => emittedEdges ops
  | .addEdge src dst weight :: ops => (src, dst, weight) :: emittedEdges ops

/-- The vertices a sequence of calls adds. -/
def emittedNodes : List GraphOp → List Int
  | [] => []
  | .addNode id :: ops => id :: emittedNodes ops
  | .addEdge _ _ _ :: ops => emittedNodes ops

/-! ## ParseData -/

/-- An OSM primitive as the PBF decoder hands it over. -/
inductive Element where
  | node (ID : Int) (Lat Lon : ℚ) (Tags : Tags)
  | way (ID : Int) (NodeIDs : List Int) (Tags : Tags)
  | relation

/-- The package-level variables of route.go: `nodes` lists the nodes as they
were decoded, `rt` the entries of the R-tree in insertion order. -/
structure State where
  nodes : List Node
  nodesIndex : Int → Option Node
  ways : List Way
  rt : List Int
  nodeGraph : Graph

/-- The package-level variables at program start. -/
def State.init : State :=
  { nodes := [], nodesIndex := fun _ => none, ways := [], rt := [],
    nodeGraph := Graph.empty }

/-- One iteration of the decode loop of `ParseData`. -/
def ingest (st : State) : Element → State
  | .node ID Lat Lon tags =>
    let node : Node := { ID := ID, Point := ⟨Lat, Lon⟩, Tags := tags, Ways := [] }
    { st with
      nodes := st.nodes ++ [node]
      nodesIndex := fun k => if k = node.ID then some node else st.nodesIndex k }
  | .way ID NodeIDs tags =>
    if ¬ (tagValue tags "highway" ∈ VALID_WAYS) then st
    else if NodeIDs.length < 2 then st
    else
      let speed := getWaySpeed (tagValue tags "highway") (tagValue tags "maxspeed")
      { st with
        ways := st.ways ++
          [{ ID := ID, NodeIDs := NodeIDs, Tags := tags, Nodes := [], Dist := 0,
             MaxSpeed := speed }] }
  | .relation => st

/-- The loop `for _, nodeID := range way.NodeIDs` of the indexing phase, for the
way at position `k`: each node is looked up, gets the way appended to its
`Ways` and is inserted into the R-tree.  `none` is the nil-pointer panic on an
id that `nodesIndex` does not hold.  The third component lists the nodes as
they were found. -/
def indexNodes (k : Nat) :
    List Int → (Int → Option Node) → List Int → List Node →
      Option ((Int → Option Node) × List Int × List Node)
  | [], idx, rt, found => some (idx, rt, found)
  | nodeID :: rest, idx, rt, found =>
    match idx nodeID with
    | none => none
    | some node =>
      indexNodes k rest
        (fun j => if j = nodeID then some { node with Ways := node.Ways ++ [k] }
                  else idx j)
        (rt ++ [nodeID]) (found ++ [node])

/-- The loop `way.Dist += curNode.Distance(nextNode)` over consecutive nodes. -/
def pathDist (dist : Point → Point → ℚ) : List Point → ℚ
  | p :: q :: rest => dist p q + pathDist dist (q :: rest)
  | _ => 0

/-- The indexing phase of `ParseData`, from the way at position `k` on.  The
pointers appended to `way.Nodes` are the ids just looked up; `way.Dist` sums
the distances between the coordinates of the nodes found. -/
def indexWays (dist : Point → Point → ℚ) :
    Nat → List Way → (Int → Option Node) → List Int →
      Option (List Way × (Int → Option Node) × List Int)
  | _, [], idx, rt => some ([], idx, rt)
  | k, way :: rest, idx, rt =>
    match indexNodes k way.NodeIDs idx rt [] with
    | none => none
    | some (idx1, rt1, found) =>
      let way1 : Way :=
        { way with
          Nodes := way.Nodes ++ way.NodeIDs
          Dist := way.Dist + pathDist dist (found.map (·.Point)) }
      match indexWays dist (k + 1) rest idx1 rt1 with
      | none => none
      | some (ways, idx2, rt2) => some (way1 :: ways, idx2, rt2)

/-- The cursor of the per-way walk: `curNode` and `segmentDist`. -/
structure Cursor where
  curNode : Node
  segmentDist : ℚ
deriving DecidableEq

/-- One iteration of the loop `for i := 1; i < len(way.Nodes); i++` of the graph
phase, with `prev = way.Nodes[i-1]` and `nextNode = way.Nodes[i]`: the new
cursor and the calls made on `nodeGraph`. -/
def walkStep (dist : Point → Point → ℚ) (way : Way) (c : Cursor)
    (prev nextNode : Node) : Cursor × List GraphOp :=
  let segmentDist := c.segmentDist + dist prev.Point nextNode.Point
  if nextNode.Ways.length > 0 then
    let t := travelTime segmentDist way.MaxSpeed
    if t = .fin 0 then
      ({ c with segmentDist := segmentDist },
        [.addNode c.curNode.ID, .addNode nextNode.ID])
    else
      ({ curNode := nextNode, segmentDist := 0 },
        [.addNode c.curNode.ID, .addNode nextNode.ID,
         .addEdge c.curNode.ID nextNode.ID t] ++
        (if tagPresent way.Tags "oneway" then []
         else [.addEdge nextNode.ID c.curNode.ID t]))
  else ({ c with segmentDist := segmentDist }, [])

/-- The loop of the graph phase over the nodes after `prev`. -/
def walkLoop (dist : Point → Point → ℚ) (way : Way) :
    Cursor → Node → List Node → List GraphOp
  | _, _, [] => []
  | c, prev, nextNode :: rest =>
    (walkStep dist way c prev nextNode).2 ++
      walkLoop dist way (walkStep dist way c prev nextNode).1 nextNode rest

/-- The graph phase for one way whose node pointers dereference to `nodes`;
`none` is the index-out-of-range panic of `way.Nodes[0]`. -/
def walk (dist : Point → Point → ℚ) (way : Way) : List Node → Option (List GraphOp)
  | [] => none
  | firstNode :: rest =>
    some (walkLoop dist way { curNode := firstNode, segmentDist := 0 } firstNode rest)

/-- The calls of the graph phase for one way of the global `ways`; `none` is a
panic (a nil node pointer, or a way without nodes). -/
def wayOps (dist : Point → Point → ℚ) (idx : Int → Option Node) (way : Way) :
    Option (List GraphOp) :=
  (mapOption idx way.Nodes).bind (walk dist way)

/-- The calls of the graph phase for all ways, in order. -/
def graphOps (dist : Point → Point → ℚ) (idx : Int → Option Node) :
    List Way → Option (List GraphOp)
  | [] => some []
  | way :: rest =>
    match wayOps dist idx way, graphOps dist idx rest with
    | some ops, some more => some (ops ++ more)
    | _, _ => none

/-- Source `ParseData`, from the decoded primitives on: the decode loop, the
indexing phase and the graph phase.  `none` is a panic. -/
def ParseData (dist : Point → Point → ℚ) (input : List Element) : Option State :=
  let st := input.foldl ingest State.init
  match indexWays dist 0 st.ways st.nodesIndex st.rt with
  | none => none
  | some (ways, idx, rt) =>
    match graphOps dist idx ways with
    | none => none
    | some ops =>
      some { st with
        nodesIndex := idx, ways := ways, rt := rt,
        nodeGraph := st.nodeGraph.applyAll ops }

/-! ## MapMatch -/

/-- The errors `MapMatch` returns. -/
inductive MatchError where
  | needTwoPoints
  | router (msg : String)
deriving DecidableEq

/-- The panics `MapMatch` can raise. -/
inductive MatchPanic where
  | nilNearest
  | originMissing
  | destMissing
  | nilNode
deriving DecidableEq

/-- Outcome of a call of `MapMatch`. -/
inductive MatchResult where
  | ok (matched : List Point)
  | error (e : MatchError)
  | panic (p : MatchPanic)
deriving DecidableEq

/-- The loop `for _, nodeID := range ids` of `MapMatch`: the coordinates of the
nodes of a routed path; `none` is the nil-pointer panic on an id that
`nodesIndex` does not hold. -/
def pathPoints (idx : Int → Option Node) (ids : List Int) : Option (List Point) :=
  mapOption (fun nodeID => (idx nodeID).map (·.Point)) ids

/-- The loop `for i := 1; i < len(points); i++` of `MapMatch`. -/
def matchLoop (nn : State → Point → Option Int)
    (dijkstra : Graph → Int → Int → Except String (List Int)) (st : State) :
    Int → List Point → List Point → MatchResult
  | _, [], matched => .ok matched
  | originNode, p :: rest, matched =>
    match nn st p with
    | none => .panic .nilNearest
    | some destNodes =>
      if st.nodeGraph.nodes destNodes = false then .panic .destMissing
      else
        match dijkstra st.nodeGraph originNode destNodes with
        | .error msg => .error (.router msg)
        | .ok ids =>
          match pathPoints st.nodesIndex ids with
          | none => .panic .nilNode
          | some pts => matchLoop nn dijkstra st destNodes rest (matched ++ pts)

/-- Source `MapMatch`.  `nn` is the R-tree nearest-neighbour query (`none` for
the nil result of an empty tree) and `dijkstra` the shortest-path routine of
the graph library. -/
def MapMatch (nn : State → Point → Option Int)
    (dijkstra : Graph → Int → Int → Except String (List Int)) (st : State)
    (points : List Point) : MatchResult :=
  if points.length < 2 then .error .needTwoPoints
  else
    match points with
    | [] => .error .needTwoPoints
    | p :: rest =>
      match nn st p with
      | none => .panic .nilNearest
      | some originNode =>
        if st.nodeGraph.nodes originNode = false then .panic .originMissing
        else matchLoop nn dijkstra st originNode rest []

/-! ## GetMatch -/

/-- What the HTTP handler does with a request: a bare status, a JSON body, or a
panic raised inside the handler. -/
inductive Response where
  | status (code : Nat)
  | json (code : Nat) (body : List (List ℚ))
  | panic
deriving DecidableEq

/-- Body of the loop over `rawPoints` in `GetMatch`.  `parseFloat` is
`strconv.ParseFloat(_, 64)`: the value and whether the error is nil; the source
discards the error.  `none` is the index-out-of-range panic of
`rawPointSplit[1]`. -/
def parsePoint (parseFloat : String → ℚ × Bool) (rawPoint : List Char) : Option Point :=
  match splitOn ',' rawPoint with
  | lat :: lon :: _ =>
    some { Lat := (parseFloat (String.mk lat)).1, Lon := (parseFloat (String.mk lon)).1 }
  | _ => none

/-- The points `GetMatch` hands to `MapMatch`. -/
def parsePoints (parseFloat : String → ℚ × Bool) (pointsParam : String) :
    Option (List Point) :=
  mapOption (parsePoint parseFloat) (splitOn ';' pointsParam.data)

/-- The answer of `GetMatch` to an outcome of `MapMatch`. -/
def respond : MatchResult → Response
  | .error _ => .status 400
  | .panic _ => .panic
  | .ok matched => .json 200 (matched.map fun m => [m.Lon, m.Lat])

/-- Source `GetMatch`, from the path parameter `points` on. -/
def GetMatch (parseFloat : String → ℚ × Bool) (nn : State → Point → Option Int)
    (dijkstra : Graph → Int → Int → Except String (List Int)) (st : State)
    (pointsParam : String) : Response :=
  match parsePoints parseFloat pointsParam with
  | none => .panic
  | some points => respond (MapMatch nn dijkstra st points)

/-! ## Concrete collaborators and inputs

The definitions of this section stand in for the libraries when a statement is
evaluated at a concrete input. -/

/-- A distance on coordinates, `|Δlat| + |Δlon|`: like the great-circle
distance it is non-negative and zero between coincident points. -/
def flatDist (p q : Point) : ℚ :=
  |p.Lat - q.Lat| + |p.Lon - q.Lon|

/-- The entry of `ids` whose node is closest to `p`, the first one among
equals. -/
def closest (idx : Int → Option Node) (p : Point) : List Int → Option (Int × ℚ)
  | [] => none
  | id :: rest =>
    match idx id, closest idx p rest with
    | none, best => best
    | some n, none => some (id, flatDist p n.Point)
    | some n, some (b, d) =>
      if flatDist p n.Point ≤ d then some (id, flatDist p n.Point) else some (b, d)

/-- A nearest-neighbour query over the entries of the R-tree. -/
def nearestFlat (st : State) (p : Point) : Option Int :=
  (closest st.nodesIndex p st.rt).map (·.1)

/-- A router that only knows the paths of at most one edge. -/
def directRoute (g : Graph) (src dst : Int) : Except String (List Int) :=
  if g.nodes src = false ∨ g.nodes dst = false then .error "not in graph"
  else if src = dst then .ok [src]
  else if (g.edges src dst).isSome then .ok [src, dst]
  else .error "no path"

/-- A float parser that reads integer literals only; on other text it reports
an error together with the value 0, as `strconv.ParseFloat` does on a syntax
error. -/
def parseFloatInt (s : String) : ℚ × Bool :=
  match Atoi s with
  | some n => ((n : ℚ), true)
  | none => (0, false)

/-- The "T" network of the end-to-end scenarios, on a grid of unit steps, with
a relation and a footpath that the ingest filter drops. -/
def tNetwork : List Element :=
  [.node 1 0 0 [], .node 2 0 1 [], .node 3 0 2 [], .node 4 1 1 [],
   .relation,
   .way 10 [1, 2, 3] [("highway", "primary")],
   .way 11 [2, 4] [("highway", "residential")],
   .way 12 [1, 4] [("highway", "footway")]]

/-- Two nodes one unit apart and a residential way between them tagged
`maxspeed=-5`. -/
def negativeSpeedInput : List Element :=
  [.node 1 0 0 [], .node 2 0 1 [],
   .way 7 [1, 2] [("highway", "residential"), ("maxspeed", "-5")]]

/-- Three nodes, the first two at the same coordinates, and a residential way
through them. -/
def coincidentInput : List Element :=
  [.node 1 0 0 [], .node 2 0 0 [], .node 3 0 1 [],
   .way 7 [1, 2, 3] [("highway", "residential")]]

/-- Two nodes at the same coordinates and a residential way between them. -/
def stackedInput : List Element :=
  [.node 1 0 0 [], .node 2 0 0 [],
   .way 7 [1, 2] [("highway", "residential")]]

/-- The state the build leaves on the "T" network. -/
def tState : State :=
  (ParseData flatDist tNetwork).get (by with_unfolding_all decide)

/-! ## Invariants of the build -/

/-- What the decode loop guarantees of a way it keeps. -/
def Retained (way : Way) : Prop :=
  tagValue way.Tags "highway" ∈ VALID_WAYS ∧ 2 ≤ way.NodeIDs.length ∧
    way.MaxSpeed = getWaySpeed (tagValue way.Tags "highway") (tagValue way.Tags "maxspeed") ∧
    way.Nodes = []

/-- Every node is held under its own id. -/
def KeyOK (idx : Int → Option Node) : Prop :=
  ∀ k n, idx k = some n → n.ID = k

/-- The id resolves to a node that some way references. -/
def Marked (idx : Int → Option Node) (id : Int) : Prop :=
  ∃ n, idx id = some n ∧ 0 < n.Ways.length

/-- What the indexing phase does to a way. -/
def Indexed (way way1 : Way) : Prop :=
  way1.ID = way.ID ∧ way1.NodeIDs = way.NodeIDs ∧ way1.Tags = way.Tags ∧
    way1.MaxSpeed = way.MaxSpeed ∧ way1.Nodes = way.Nodes ++ way.NodeIDs

/-- Both endpoints of every edge of the graph are vertices of the graph. -/
def Closed (g : Graph) : Prop :=
  ∀ u v w, g.edges u v = some w → g.nodes u = true ∧ g.nodes v = true

/-- The graph has an edge `u → v` exactly when it has `v → u`, with the same
weight. -/
def Sym (g : Graph) : Prop :=
  ∀ u v, g.edges u v = g.edges v u

/-- The calls of a walk that adds, for every consecutive pair of the way's
nodes, the two vertices, the edge between them and, unless the way has a
`oneway` tag, the reverse edge. -/
def consecutiveOps (dist : Point → Point → ℚ) (way : Way) : Node → List Node → List GraphOp
  | _, [] => []
  | prev, nextNode :: rest =>
    [.addNode prev.ID, .addNode nextNode.ID,
     .addEdge prev.ID nextNode.ID (travelTime (dist prev.Point nextNode.Point) way.MaxSpeed)] ++
    (if tagPresent way.Tags "oneway" then []
     else [.addEdge nextNode.ID prev.ID
       (travelTime (dist prev.Point nextNode.Point) way.MaxSpeed)]) ++
    consecutiveOps dist way nextNode rest

/-- The candidate travel time between two consecutive nodes of a way is not
zero. -/
def NonZeroStep (dist : Point → Point → ℚ) (way : Way) (a b : Node) : Prop :=
  travelTime (dist a.Point b.Point) way.MaxSpeed ≠ .fin 0

/-- The hops of a match: the consecutive pairs of the snapped nodes. -/
def hops : List Int → List (Int × Int)
  | a :: b :: rest => (a, b) :: hops (b :: rest)
  | _ => []

/-- A stretch of the result that starts at the coordinate of the node `hop.1`
and ends at the coordinate of the node `hop.2`. -/
def Spans (idx : Int → Option Node) (hop : Int × Int) (seg : List Point) : Prop :=
  ∃ na nb, idx hop.1 = some na ∧ idx hop.2 = some nb ∧
    seg.head? = some na.Point ∧ seg.getLast? = some nb.Point

/-- The point `GetMatch` reads from a piece `lat,lon` of the request: the
values `parseFloat` returns for the first two fields, whether or not it reports
an error with them. -/
def pointOf (parseFloat : String → ℚ × Bool) (rawPoint : List Char) : Point :=
  { Lat := (parseFloat (String.mk ((splitOn ',' rawPoint).getD 0 []))).1
    Lon := (parseFloat (String.mk ((splitOn ',' rawPoint).getD 1 []))).1 }

/-! ## Lemmas on `Atoi` -/


theorem digitChar_isDigit (k : Nat) (hk : k < 10) :
    (Nat.digitChar k).isDigit = true ∧ (Nat.digitChar k).toNat - 48 = k ∧
      Nat.digitChar k ≠ '-' ∧ Nat.digitChar k ≠ '+' := by
  interval_cases k <;> decide

theorem parseDigits_toDigitsCore (fuel : Nat) :
    ∀ (n : Nat) (ds : List Char), n < fuel →
      parseDigits 0 (Nat.toDigitsCore 10 fuel n ds) = parseDigits n ds := by
  induction fuel with
  | zero => intro n ds h; omega
  | succ fuel ih =>
    intro n ds h
    have hd := digitChar_isDigit (n % 10) (Nat.mod_lt _ (by decide))
    unfold Nat.toDigitsCore
    by_cases h0 : n / 10 = 0
    · simp only [h0, if_true]
      have hn : n % 10 = n := by omega
      rw [hn] at hd
      simp [parseDigits, hd.1, hd.2.1, hn]
    · simp only [h0, if_false]
      rw [ih (n / 10) _ (by omega)]
      have hn : n / 10 * 10 + n % 10 = n := by omega
      simp [parseDigits, hd.1, hd.2.1, hn]

theorem toDigitsCore_head (fuel : Nat) :
    ∀ (n : Nat) (ds : List Char), n < fuel →
      ∃ k cs, k < 10 ∧ Nat.toDigitsCore 10 fuel n ds = Nat.digitChar k :: cs := by
  induction fuel with
  | zero => intro n ds h; omega
  | succ fuel ih =>
    intro n ds h
    unfold Nat.toDigitsCore
    by_cases h0 : n / 10 = 0
    · simp only [h0, if_true]
      exact ⟨n % 10, ds, Nat.mod_lt _ (by decide), rfl⟩
    · simp only [h0, if_false]
      exact ih (n / 10) _ (by omega)

theorem Atoi_of_digits (s : String) (k : Nat) (cs : List Char) (n : Nat)
    (hs : s.data = Nat.digitChar k :: cs) (hk : k < 10)
    (hp : parseDigits 0 s.data = some n) :
    Atoi s = if n < intCutoff then some (n : Int) else none := by
  have hd := digitChar_isDigit k hk
  unfold Atoi
  rw [hs] at hp ⊢
  split
  · simp_all
  · rename_i h; simp at h; exact absurd h.1 hd.2.2.1
  · rename_i h; simp at h; exact absurd h.1 hd.2.2.2
  · simp [hp]

theorem Atoi_toString (n : Nat) :
    Atoi (toString n) = if n < intCutoff then some (n : Int) else none := by
  obtain ⟨k, cs, hk, hcs⟩ := toDigitsCore_head (n + 1) n [] (Nat.lt_succ_self n)
  have hdata : (toString n).data = Nat.toDigitsCore 10 (n + 1) n [] := rfl
  refine Atoi_of_digits (toString n) k cs n (hdata.trans hcs) hk ?_
  rw [hdata, parseDigits_toDigitsCore (n + 1) n [] (Nat.lt_succ_self n)]
  rfl


/-! ## Lemmas on the decode loop -/

theorem ingest_retained (st : State) (e : Element)
    (h : ∀ way ∈ st.ways, Retained way) : ∀ way ∈ (ingest st e).ways, Retained way := by
  cases e with
  | node ID Lat Lon tags => exact h
  | relation => exact h
  | way ID NodeIDs tags =>
    unfold ingest
    by_cases hv : tagValue tags "highway" ∈ VALID_WAYS
    · by_cases hl : NodeIDs.length < 2
      · simpa [hv, hl] using h
      · intro way hw
        simp only [hv, hl, not_true_eq_false, if_false, List.mem_append,
          List.mem_singleton] at hw
        rcases hw with hw | hw
        · exact h way hw
        · subst hw
          exact ⟨hv, by simpa using hl, rfl, rfl⟩
    · simpa [hv] using h

theorem foldl_ingest_retained (input : List Element) :
    ∀ st : State, (∀ way ∈ st.ways, Retained way) →
      ∀ way ∈ (input.foldl ingest st).ways, Retained way := by
  induction input with
  | nil => intro st h; exact h
  | cons e rest ih => intro st h; exact ih (ingest st e) (ingest_retained st e h)

theorem init_retained : ∀ way ∈ State.init.ways, Retained way := by
  intro way hw; cases hw


/-! ## Lemmas on the indexing phase -/

theorem ingest_keyOK (st : State) (e : Element) (h : KeyOK st.nodesIndex) :
    KeyOK (ingest st e).nodesIndex := by
  cases e with
  | node ID Lat Lon tags =>
    intro k n hk
    simp only [ingest] at hk
    by_cases hkk : k = ID
    · simp only [hkk, if_true, Option.some.injEq] at hk
      subst hk; exact hkk.symm
    · simp only [hkk, if_false] at hk
      exact h k n hk
  | relation => exact h
  | way ID NodeIDs tags =>
    simp only [ingest]
    split_ifs <;> exact h

theorem foldl_ingest_keyOK (input : List Element) :
    ∀ st : State, KeyOK st.nodesIndex → KeyOK (input.foldl ingest st).nodesIndex := by
  induction input with
  | nil => intro st h; exact h
  | cons e rest ih => intro st h; exact ih (ingest st e) (ingest_keyOK st e h)

theorem ingest_rt (st : State) (e : Element) :
    (ingest st e).rt = st.rt ∧ (ingest st e).nodeGraph = st.nodeGraph := by
  cases e with
  | node ID Lat Lon tags => exact ⟨rfl, rfl⟩
  | relation => exact ⟨rfl, rfl⟩
  | way ID NodeIDs tags =>
    simp only [ingest]
    split_ifs <;> exact ⟨rfl, rfl⟩

theorem foldl_ingest_rt (input : List Element) :
    ∀ st : State, (input.foldl ingest st).rt = st.rt ∧
      (input.foldl ingest st).nodeGraph = st.nodeGraph := by
  induction input with
  | nil => intro st; exact ⟨rfl, rfl⟩
  | cons e rest ih =>
    intro st
    exact ⟨(ih (ingest st e)).1.trans (ingest_rt st e).1,
      (ih (ingest st e)).2.trans (ingest_rt st e).2⟩

theorem indexNodes_spec (k : Nat) :
    ∀ (ids : List Int) (idx : Int → Option Node) (rt : List Int) (found : List Node)
      (idx1 : Int → Option Node) (rt1 : List Int) (found1 : List Node),
      indexNodes k ids idx rt found = some (idx1, rt1, found1) →
        rt1 = rt ++ ids ∧ (KeyOK idx → KeyOK idx1) ∧
          (∀ id, Marked idx id → Marked idx1 id) ∧ (∀ id ∈ ids, Marked idx1 id) := by
  intro ids
  induction ids with
  | nil =>
    intro idx rt found idx1 rt1 found1 h
    simp only [indexNodes, Option.some.injEq, Prod.mk.injEq] at h
    obtain ⟨h1, h2, -⟩ := h
    subst h1; subst h2
    exact ⟨by simp, id, fun _ hm => hm, by simp⟩
  | cons nodeID rest ih =>
    intro idx rt found idx1 rt1 found1 h
    unfold indexNodes at h
    cases hn : idx nodeID with
    | none => simp [hn] at h
    | some node =>
      simp only [hn] at h
      obtain ⟨hrt, hkey, hmono, hall⟩ := ih _ _ _ _ _ _ h
      have hstep : ∀ id, Marked idx id →
          Marked (fun j => if j = nodeID then some { node with Ways := node.Ways ++ [k] }
            else idx j) id := by
        intro id ⟨n, hid, hpos⟩
        by_cases hj : id = nodeID
        · subst hj
          exact ⟨{ node with Ways := node.Ways ++ [k] }, by simp, by simp⟩
        · exact ⟨n, by simp [hj, hid], hpos⟩
      refine ⟨by simp [hrt], ?_, fun id hm => hmono id (hstep id hm), ?_⟩
      · intro hk
        apply hkey
        intro j n hj
        by_cases hjj : j = nodeID
        · simp only [hjj, if_true, Option.some.injEq] at hj
          subst hj
          simpa [hjj] using hk nodeID node hn
        · simp only [hjj, if_false] at hj
          exact hk j n hj
      · intro id hid
        rcases List.mem_cons.1 hid with hid | hid
        · subst hid
          exact hmono _ ⟨{ node with Ways := node.Ways ++ [k] }, by simp, by simp⟩
        · exact hall id hid

theorem indexNodes_isSome (k : Nat) :
    ∀ (ids : List Int) (idx : Int → Option Node) (rt : List Int) (found : List Node),
      (∀ id ∈ ids, (idx id).isSome = true) →
        ∃ idx1 rt1 found1, indexNodes k ids idx rt found = some (idx1, rt1, found1) ∧
          ∀ id, (idx1 id).isSome = (idx id).isSome := by
  intro ids
  induction ids with
  | nil => intro idx rt found _; exact ⟨idx, rt, found, rfl, fun _ => rfl⟩
  | cons nodeID rest ih =>
    intro idx rt found h
    obtain ⟨node, hn⟩ := Option.isSome_iff_exists.1 (h nodeID (List.mem_cons_self _ _))
    have hdom : ∀ id, (if id = nodeID then some { node with Ways := node.Ways ++ [k] }
        else idx id).isSome = (idx id).isSome := by
      intro id
      by_cases hj : id = nodeID
      · simp [hj, hn]
      · simp [hj]
    obtain ⟨idx1, rt1, found1, h1, h2⟩ :=
      ih (fun j => if j = nodeID then some { node with Ways := node.Ways ++ [k] } else idx j)
        (rt ++ [nodeID]) (found ++ [node])
        (fun id hid => by rw [hdom id]; exact h id (List.mem_cons_of_mem _ hid))
    refine ⟨idx1, rt1, found1, ?_, fun id => (h2 id).trans (hdom id)⟩
    unfold indexNodes
    simp only [hn]
    exact h1


theorem indexWays_spec (dist : Point → Point → ℚ) :
    ∀ (ways : List Way) (k : Nat) (idx : Int → Option Node) (rt : List Int)
      (ways1 : List Way) (idx1 : Int → Option Node) (rt1 : List Int),
      indexWays dist k ways idx rt = some (ways1, idx1, rt1) →
        List.Forall₂ Indexed ways ways1 ∧
          rt1 = rt ++ (ways.map (·.NodeIDs)).flatten ∧ (KeyOK idx → KeyOK idx1) ∧
          (∀ id, Marked idx id → Marked idx1 id) ∧
          (∀ way ∈ ways, ∀ id ∈ way.NodeIDs, Marked idx1 id) := by
  intro ways
  induction ways with
  | nil =>
    intro k idx rt ways1 idx1 rt1 h
    simp only [indexWays, Option.some.injEq, Prod.mk.injEq] at h
    obtain ⟨h1, h2, h3⟩ := h
    subst h1; subst h2; subst h3
    exact ⟨List.Forall₂.nil, by simp, id, fun _ hm => hm, by simp⟩
  | cons way rest ih =>
    intro k idx rt ways1 idx1 rt1 h
    unfold indexWays at h
    cases hn : indexNodes k way.NodeIDs idx rt [] with
    | none => simp [hn] at h
    | some r =>
      obtain ⟨idxa, rta, found⟩ := r
      simp only [hn] at h
      cases hr : indexWays dist (k + 1) rest idxa rta with
      | none => simp [hr] at h
      | some r2 =>
        obtain ⟨waysb, idxb, rtb⟩ := r2
        simp only [hr, Option.some.injEq, Prod.mk.injEq] at h
        obtain ⟨h1, h2, h3⟩ := h
        subst h1; subst h2; subst h3
        obtain ⟨hrta, hkeya, hmonoa, halla⟩ := indexNodes_spec k _ _ _ _ _ _ _ hn
        obtain ⟨hfor, hrtb, hkeyb, hmonob, hallb⟩ := ih _ _ _ _ _ _ hr
        refine ⟨List.Forall₂.cons ⟨rfl, rfl, rfl, rfl, rfl⟩ hfor, ?_,
          fun hk => hkeyb (hkeya hk), fun id hm => hmonob id (hmonoa id hm), ?_⟩
        · simp [hrtb, hrta]
        · intro w hw id hid
          rcases List.mem_cons.1 hw with hw | hw
          · subst hw
            exact hmonob id (halla id hid)
          · exact hallb w hw id hid

theorem indexWays_isSome (dist : Point → Point → ℚ) :
    ∀ (ways : List Way) (k : Nat) (idx : Int → Option Node) (rt : List Int),
      (∀ way ∈ ways, ∀ id ∈ way.NodeIDs, (idx id).isSome = true) →
        ∃ r, indexWays dist k ways idx rt = some r := by
  intro ways
  induction ways with
  | nil => intro k idx rt _; exact ⟨_, rfl⟩
  | cons way rest ih =>
    intro k idx rt h
    obtain ⟨idxa, rta, found, hn, hdom⟩ :=
      indexNodes_isSome k way.NodeIDs idx rt [] (h way (List.mem_cons_self _ _))
    obtain ⟨⟨waysb, idxb, rtb⟩, hr⟩ := ih (k + 1) idxa rta
      (fun w hw id hid => by rw [hdom id]; exact h w (List.mem_cons_of_mem _ hw) id hid)
    refine ⟨({ way with
      Nodes := way.Nodes ++ way.NodeIDs
      Dist := way.Dist + pathDist dist (found.map (·.Point)) } :: waysb, idxb, rtb), ?_⟩
    unfold indexWays
    simp only [hn, hr]

/-! ## Lemmas on the graph -/

theorem applyAll_append (g : Graph) (a b : List GraphOp) :
    g.applyAll (a ++ b) = (g.applyAll a).applyAll b := by
  simp [Graph.applyAll, List.foldl_append]

theorem emittedEdges_append (a b : List GraphOp) :
    emittedEdges (a ++ b) = emittedEdges a ++ emittedEdges b := by
  induction a with
  | nil => rfl
  | cons op rest ih => cases op <;> simp [emittedEdges, ih]

theorem emittedNodes_append (a b : List GraphOp) :
    emittedNodes (a ++ b) = emittedNodes a ++ emittedNodes b := by
  induction a with
  | nil => rfl
  | cons op rest ih => cases op <;> simp [emittedNodes, ih]

theorem applyAll_nodes (ops : List GraphOp) :
    ∀ (g : Graph) (v : Int),
      (g.applyAll ops).nodes v = true ↔ g.nodes v = true ∨ v ∈ emittedNodes ops := by
  induction ops with
  | nil => intro g v; simp [Graph.applyAll, emittedNodes]
  | cons op rest ih =>
    intro g v
    have h : g.applyAll (op :: rest) = (g.apply op).applyAll rest := rfl
    rw [h, ih]
    cases op with
    | addNode id =>
      by_cases hv : v = id <;> simp [Graph.apply, emittedNodes, hv]
    | addEdge src dst w => simp [Graph.apply, emittedNodes]

theorem applyAll_edges (ops : List GraphOp) :
    ∀ (g : Graph) (u v : Int) (w : Weight),
      (g.applyAll ops).edges u v = some w →
        g.edges u v = some w ∨ (u, v, w) ∈ emittedEdges ops := by
  induction ops with
  | nil => intro g u v w h; exact Or.inl h
  | cons op rest ih =>
    intro g u v w h
    have h1 : g.applyAll (op :: rest) = (g.apply op).applyAll rest := rfl
    rw [h1] at h
    rcases ih _ u v w h with h2 | h2
    · cases op with
      | addNode id => exact Or.inl h2
      | addEdge src dst t =>
        simp only [Graph.apply] at h2
        by_cases huv : u = src ∧ v = dst
        · simp only [huv, and_self, if_true, Option.some.injEq] at h2
          right
          simp [emittedEdges, huv, h2]
        · simp only [huv, if_false] at h2
          exact Or.inl h2
    · right
      cases op <;> simp [emittedEdges, h2]

theorem ite_sym {α : Type} (A B A1 B1 : Prop) [Decidable A] [Decidable B]
    [Decidable A1] [Decidable B1] (hA : A1 ↔ B) (hB : B1 ↔ A) (t x y : α) (hxy : x = y) :
    (if A then t else if B then t else x) = (if A1 then t else if B1 then t else y) := by
  subst hxy
  by_cases a : A <;> by_cases b : B <;> simp [a, b, hA, hB]

theorem walkStep_closed (dist : Point → Point → ℚ) (way : Way) (c : Cursor)
    (prev nextNode : Node) (g : Graph) (hg : Closed g) :
    Closed (g.applyAll (walkStep dist way c prev nextNode).2) := by
  unfold walkStep
  intro u v w
  simp only
  split_ifs <;>
    simp only [Graph.applyAll, List.foldl, Graph.apply, List.cons_append, List.nil_append] <;>
    intro h
  · obtain ⟨h1, h2⟩ := hg u v w h
    simp [h1, h2]
  · split_ifs at h with h1
    · simp [h1]
    · obtain ⟨h1, h2⟩ := hg u v w h
      simp [h1, h2]
  · split_ifs at h with h1 h2
    · simp [h1]
    · simp [h2]
    · obtain ⟨h1, h2⟩ := hg u v w h
      simp [h1, h2]
  · exact hg u v w h

theorem walkStep_sym (dist : Point → Point → ℚ) (way : Way) (c : Cursor)
    (prev nextNode : Node) (g : Graph) (hway : tagPresent way.Tags "oneway" = false)
    (hg : Sym g) : Sym (g.applyAll (walkStep dist way c prev nextNode).2) := by
  unfold walkStep
  intro u v
  simp only [hway]
  split_ifs <;>
    simp only [Graph.applyAll, List.foldl, Graph.apply, List.cons_append, List.nil_append]
  all_goals first
    | exact hg u v
    | contradiction
    | exact ite_sym _ _ _ _ and_comm and_comm _ _ _ (hg u v)

/-! ## Lemmas on the graph phase -/

theorem walkLoop_preserves (P : Graph → Prop) (dist : Point → Point → ℚ) (way : Way)
    (hstep : ∀ c prev nextNode g, P g → P (g.applyAll (walkStep dist way c prev nextNode).2)) :
    ∀ (rest : List Node) (c : Cursor) (prev : Node) (g : Graph),
      P g → P (g.applyAll (walkLoop dist way c prev rest)) := by
  intro rest
  induction rest with
  | nil => intro c prev g hg; exact hg
  | cons nextNode rest ih =>
    intro c prev g hg
    unfold walkLoop
    rw [applyAll_append]
    exact ih _ _ _ (hstep c prev nextNode g hg)

theorem wayOps_preserves (P : Graph → Prop) (dist : Point → Point → ℚ)
    (idx : Int → Option Node) (way : Way) (ops : List GraphOp)
    (hstep : ∀ c prev nextNode g, P g → P (g.applyAll (walkStep dist way c prev nextNode).2))
    (hops : wayOps dist idx way = some ops) (g : Graph) (hg : P g) :
    P (g.applyAll ops) := by
  unfold wayOps at hops
  cases hn : mapOption idx way.Nodes with
  | none => simp [hn] at hops
  | some nodes =>
    simp only [hn, Option.some_bind] at hops
    cases nodes with
    | nil => simp [walk] at hops
    | cons firstNode rest =>
      simp only [walk, Option.some.injEq] at hops
      subst hops
      exact walkLoop_preserves P dist way hstep rest _ _ g hg

theorem graphOps_cons (dist : Point → Point → ℚ) (idx : Int → Option Node)
    (way : Way) (rest : List Way) (ops : List GraphOp)
    (h : graphOps dist idx (way :: rest) = some ops) :
    ∃ a b, wayOps dist idx way = some a ∧ graphOps dist idx rest = some b ∧
      ops = a ++ b := by
  unfold graphOps at h
  cases ha : wayOps dist idx way with
  | none => simp [ha] at h
  | some a =>
    cases hb : graphOps dist idx rest with
    | none => simp [ha, hb] at h
    | some b =>
      simp only [ha, hb, Option.some.injEq] at h
      exact ⟨a, b, rfl, rfl, h.symm⟩

theorem graphOps_preserves (P : Graph → Prop) (dist : Point → Point → ℚ)
    (idx : Int → Option Node) :
    ∀ (ways : List Way) (ops : List GraphOp),
      (∀ way ∈ ways, ∀ c prev nextNode g,
        P g → P (g.applyAll (walkStep dist way c prev nextNode).2)) →
      graphOps dist idx ways = some ops → ∀ g, P g → P (g.applyAll ops) := by
  intro ways
  induction ways with
  | nil =>
    intro ops _ h g hg
    simp only [graphOps, Option.some.injEq] at h
    subst h
    exact hg
  | cons way rest ih =>
    intro ops hstep h g hg
    obtain ⟨a, b, ha, hb, hab⟩ := graphOps_cons dist idx way rest ops h
    subst hab
    rw [applyAll_append]
    exact ih b (fun w hw => hstep w (List.mem_cons_of_mem _ hw)) hb _
      (wayOps_preserves P dist idx way a (hstep way (List.mem_cons_self _ _)) ha g hg)

theorem graphOps_mem (dist : Point → Point → ℚ) (idx : Int → Option Node) :
    ∀ (ways : List Way) (ops : List GraphOp), graphOps dist idx ways = some ops →
      (∀ way ∈ ways, ∃ a, wayOps dist idx way = some a ∧ ∀ op ∈ a, op ∈ ops) ∧
        (∀ op ∈ ops, ∃ way ∈ ways, ∃ a, wayOps dist idx way = some a ∧ op ∈ a) := by
  intro ways
  induction ways with
  | nil =>
    intro ops h
    simp only [graphOps, Option.some.injEq] at h
    subst h
    simp
  | cons way rest ih =>
    intro ops h
    obtain ⟨a, b, ha, hb, hab⟩ := graphOps_cons dist idx way rest ops h
    subst hab
    obtain ⟨ih1, ih2⟩ := ih b hb
    constructor
    · intro w hw
      rcases List.mem_cons.1 hw with hw | hw
      · subst hw
        exact ⟨a, ha, fun op hop => List.mem_append_left _ hop⟩
      · obtain ⟨a1, h1, h2⟩ := ih1 w hw
        exact ⟨a1, h1, fun op hop => List.mem_append_right _ (h2 op hop)⟩
    · intro op hop
      rcases List.mem_append.1 hop with hop | hop
      · exact ⟨way, List.mem_cons_self _ _, a, ha, hop⟩
      · obtain ⟨w, hw, a1, h1, h2⟩ := ih2 op hop
        exact ⟨w, List.mem_cons_of_mem _ hw, a1, h1, h2⟩

theorem graphOps_isSome (dist : Point → Point → ℚ) (idx : Int → Option Node) :
    ∀ (ways : List Way), (∀ way ∈ ways, ∃ a, wayOps dist idx way = some a) →
      ∃ ops, graphOps dist idx ways = some ops := by
  intro ways
  induction ways with
  | nil => intro _; exact ⟨[], rfl⟩
  | cons way rest ih =>
    intro h
    obtain ⟨a, ha⟩ := h way (List.mem_cons_self _ _)
    obtain ⟨b, hb⟩ := ih (fun w hw => h w (List.mem_cons_of_mem _ hw))
    exact ⟨a ++ b, by unfold graphOps; simp only [ha, hb]⟩

theorem mem_emittedEdges {u v : Int} {w : Weight} {ops : List GraphOp} :
    (u, v, w) ∈ emittedEdges ops ↔ GraphOp.addEdge u v w ∈ ops := by
  induction ops with
  | nil => simp [emittedEdges]
  | cons op rest ih => cases op <;> simp [emittedEdges, ih]

theorem mem_emittedNodes {v : Int} {ops : List GraphOp} :
    v ∈ emittedNodes ops ↔ GraphOp.addNode v ∈ ops := by
  induction ops with
  | nil => simp [emittedNodes]
  | cons op rest ih => cases op <;> simp [emittedNodes, ih]

/-- The phases of a build that returns. -/
theorem ParseData_phases (dist : Point → Point → ℚ) (input : List Element) (st : State)
    (h : ParseData dist input = some st) :
    ∃ ops, indexWays dist 0 (input.foldl ingest State.init).ways
        (input.foldl ingest State.init).nodesIndex [] = some (st.ways, st.nodesIndex, st.rt) ∧
      graphOps dist st.nodesIndex st.ways = some ops ∧
      st.nodeGraph = Graph.empty.applyAll ops := by
  unfold ParseData at h
  have hrt := foldl_ingest_rt input State.init
  simp only [hrt.1, hrt.2] at h
  cases hi : indexWays dist 0 (input.foldl ingest State.init).ways
      (input.foldl ingest State.init).nodesIndex State.init.rt with
  | none => simp [hi] at h
  | some r =>
    obtain ⟨ways, idx, rt⟩ := r
    simp only [hi] at h
    cases hg : graphOps dist idx ways with
    | none => simp [hg] at h
    | some ops =>
      simp only [hg, Option.some.injEq] at h
      subst h
      exact ⟨ops, hi, hg, rfl⟩

/-! ## Lemmas on the built state -/

theorem forall₂_indexed (ways ways1 : List Way) (h : List.Forall₂ Indexed ways ways1)
    (hret : ∀ way ∈ ways, Retained way) :
    (∀ way1 ∈ ways1, ∃ way ∈ ways, Indexed way way1) ∧
      ways.map (·.NodeIDs) = ways1.map (·.Nodes) := by
  induction h with
  | nil => simp
  | @cons a b l1 l2 hab _ ih =>
    obtain ⟨ih1, ih2⟩ := ih (fun w hw => hret w (List.mem_cons_of_mem _ hw))
    have ha := hret a (List.mem_cons_self _ _)
    constructor
    · intro w hw
      rcases List.mem_cons.1 hw with hw | hw
      · subst hw
        exact ⟨a, List.mem_cons_self _ _, hab⟩
      · obtain ⟨w0, hw0, hi⟩ := ih1 w hw
        exact ⟨w0, List.mem_cons_of_mem _ hw0, hi⟩
    · have : b.Nodes = a.NodeIDs := by rw [hab.2.2.2.2, ha.2.2.2]; rfl
      simp [ih2, this]

/-- What the indexing phase, when it returns, guarantees of the ways, the node
index and the R-tree it leaves. -/
theorem indexed_built (dist : Point → Point → ℚ) (input : List Element)
    (ways : List Way) (idx : Int → Option Node) (rt : List Int)
    (hi : indexWays dist 0 (input.foldl ingest State.init).ways
      (input.foldl ingest State.init).nodesIndex [] = some (ways, idx, rt)) :
    KeyOK idx ∧ rt = (ways.map (·.Nodes)).flatten ∧
      ∀ way ∈ ways,
        tagValue way.Tags "highway" ∈ VALID_WAYS ∧ 2 ≤ way.Nodes.length ∧
        way.MaxSpeed = getWaySpeed (tagValue way.Tags "highway") (tagValue way.Tags "maxspeed") ∧
        way.Nodes = way.NodeIDs ∧ ∀ id ∈ way.Nodes, Marked idx id := by
  obtain ⟨hfor, hrt, hkey, -, hall⟩ := indexWays_spec dist _ _ _ _ _ _ _ hi
  have hret := foldl_ingest_retained input State.init init_retained
  obtain ⟨hex, hmap⟩ := forall₂_indexed _ _ hfor hret
  have hk0 : KeyOK State.init.nodesIndex := by intro k n hk; simp [State.init] at hk
  refine ⟨hkey (foldl_ingest_keyOK input State.init hk0), ?_, ?_⟩
  · rw [hrt, hmap]; simp
  · intro way1 hw1
    obtain ⟨way, hw, hind⟩ := hex way1 hw1
    obtain ⟨h1, h2, h3, h4⟩ := hret way hw
    obtain ⟨-, i2, i3, i4, i5⟩ := hind
    have hn : way1.Nodes = way1.NodeIDs := by rw [i5, h4, i2]; rfl
    refine ⟨by rw [i3]; exact h1, by rw [hn, i2]; exact h2, by rw [i4, i3]; exact h3, hn, ?_⟩
    intro id hid
    rw [hn, i2] at hid
    exact hall way hw id hid

/-- What a build that returns guarantees of the state it leaves. -/
theorem ParseData_built (dist : Point → Point → ℚ) (input : List Element) (st : State)
    (h : ParseData dist input = some st) :
    KeyOK st.nodesIndex ∧ st.rt = (st.ways.map (·.Nodes)).flatten ∧
      ∀ way ∈ st.ways,
        tagValue way.Tags "highway" ∈ VALID_WAYS ∧ 2 ≤ way.Nodes.length ∧
        way.MaxSpeed = getWaySpeed (tagValue way.Tags "highway") (tagValue way.Tags "maxspeed") ∧
        way.Nodes = way.NodeIDs ∧ ∀ id ∈ way.Nodes, Marked st.nodesIndex id := by
  obtain ⟨ops, hi, -, -⟩ := ParseData_phases dist input st h
  exact indexed_built dist input _ _ _ hi

theorem mapOption_marked (idx : Int → Option Node) (hkey : KeyOK idx) :
    ∀ ids : List Int, (∀ id ∈ ids, Marked idx id) →
      ∃ nodes, mapOption idx ids = some nodes ∧ nodes.map (·.ID) = ids ∧
        ∀ n ∈ nodes, 0 < n.Ways.length := by
  intro ids
  induction ids with
  | nil => intro _; exact ⟨[], rfl, rfl, by simp⟩
  | cons id rest ih =>
    intro h
    obtain ⟨n, hn, hpos⟩ := h id (List.mem_cons_self _ _)
    obtain ⟨nodes, h1, h2, h3⟩ := ih (fun j hj => h j (List.mem_cons_of_mem _ hj))
    refine ⟨n :: nodes, by simp [mapOption, hn, h1], by simp [h2, hkey id n hn], ?_⟩
    intro m hm
    rcases List.mem_cons.1 hm with hm | hm
    · subst hm; exact hpos
    · exact h3 m hm

/-- The walk of a way with at least two node pointers, all of them resolving to
nodes with a back-reference, returns. -/
theorem marked_wayOps (dist : Point → Point → ℚ) (idx : Int → Option Node)
    (hkey : KeyOK idx) (way : Way) (hlen : 2 ≤ way.Nodes.length)
    (hmark : ∀ id ∈ way.Nodes, Marked idx id) :
    ∃ firstNode rest, mapOption idx way.Nodes = some (firstNode :: rest) ∧
      rest ≠ [] ∧ (firstNode :: rest).map (·.ID) = way.Nodes ∧
      (∀ n ∈ firstNode :: rest, 0 < n.Ways.length) ∧
      wayOps dist idx way =
        some (walkLoop dist way { curNode := firstNode, segmentDist := 0 } firstNode rest) := by
  obtain ⟨nodes, h1, h2, h3⟩ := mapOption_marked idx hkey way.Nodes hmark
  have hl : nodes.length = way.Nodes.length := by rw [← h2]; simp
  match nodes, h1, h2, h3, hl with
  | [], _, _, _, hl => simp at hl; omega
  | [a], _, _, _, hl => simp at hl; omega
  | firstNode :: b :: rest, h1, h2, h3, _ =>
    exact ⟨firstNode, b :: rest, h1, by simp, h2, h3, by simp [wayOps, h1, walk]⟩

/-- The walk of a way of a built state returns. -/
theorem built_wayOps (dist : Point → Point → ℚ) (input : List Element) (st : State)
    (h : ParseData dist input = some st) (way : Way) (hw : way ∈ st.ways) :
    ∃ firstNode rest, mapOption st.nodesIndex way.Nodes = some (firstNode :: rest) ∧
      rest ≠ [] ∧ (firstNode :: rest).map (·.ID) = way.Nodes ∧
      (∀ n ∈ firstNode :: rest, 0 < n.Ways.length) ∧
      wayOps dist st.nodesIndex way =
        some (walkLoop dist way { curNode := firstNode, segmentDist := 0 } firstNode rest) := by
  obtain ⟨hkey, -, hall⟩ := ParseData_built dist input st h
  obtain ⟨-, hlen, -, -, hmark⟩ := hall way hw
  exact marked_wayOps dist st.nodesIndex hkey way hlen hmark

/-- The build returns when every node id of every retained way is the id of a
decoded node. -/
theorem ParseData_isSome (dist : Point → Point → ℚ) (input : List Element)
    (hres : ∀ way ∈ (input.foldl ingest State.init).ways, ∀ id ∈ way.NodeIDs,
      ((input.foldl ingest State.init).nodesIndex id).isSome = true) :
    ∃ st, ParseData dist input = some st := by
  obtain ⟨⟨ways, idx, rt⟩, hi⟩ := indexWays_isSome dist _ 0 _ [] hres
  obtain ⟨hkey, -, hall⟩ := indexed_built dist input ways idx rt hi
  obtain ⟨ops, hops⟩ := graphOps_isSome dist idx ways (fun way hw => by
    obtain ⟨-, hlen, -, -, hmark⟩ := hall way hw
    obtain ⟨f, r, -, -, -, -, hwo⟩ := marked_wayOps dist idx hkey way hlen hmark
    exact ⟨_, hwo⟩)
  have hrt := foldl_ingest_rt input State.init
  have hi2 : indexWays dist 0 (input.foldl ingest State.init).ways
      (input.foldl ingest State.init).nodesIndex State.init.rt = some (ways, idx, rt) := hi
  unfold ParseData
  simp only [hrt.1, hi2, hops]
  exact ⟨_, rfl⟩

/-! ## Lemmas on the per-way walk -/

theorem walkStep_nodes (dist : Point → Point → ℚ) (way : Way) (c : Cursor)
    (prev nextNode : Node) (h : 0 < nextNode.Ways.length) :
    c.curNode.ID ∈ emittedNodes (walkStep dist way c prev nextNode).2 ∧
      nextNode.ID ∈ emittedNodes (walkStep dist way c prev nextNode).2 := by
  unfold walkStep
  simp only [gt_iff_lt, h, if_true]
  split_ifs <;> simp [emittedNodes]

theorem walkLoop_nodes (dist : Point → Point → ℚ) (way : Way) :
    ∀ (rest : List Node) (c : Cursor) (prev : Node),
      (∀ n ∈ rest, 0 < n.Ways.length) →
        (∀ n ∈ rest, n.ID ∈ emittedNodes (walkLoop dist way c prev rest)) ∧
          (rest ≠ [] → c.curNode.ID ∈ emittedNodes (walkLoop dist way c prev rest)) := by
  intro rest
  induction rest with
  | nil => intro c prev _; simp
  | cons nextNode rest ih =>
    intro c prev h
    obtain ⟨h1, h2⟩ := walkStep_nodes dist way c prev nextNode (h nextNode (List.mem_cons_self _ _))
    obtain ⟨ih1, -⟩ := ih (walkStep dist way c prev nextNode).1 nextNode
      (fun n hn => h n (List.mem_cons_of_mem _ hn))
    unfold walkLoop
    rw [emittedNodes_append]
    constructor
    · intro n hn
      rcases List.mem_cons.1 hn with hn | hn
      · subst hn; exact List.mem_append_left _ h2
      · exact List.mem_append_right _ (ih1 n hn)
    · intro _; exact List.mem_append_left _ h1

theorem walkStep_edges_sym (dist : Point → Point → ℚ) (way : Way) (c : Cursor)
    (prev nextNode : Node) (hway : tagPresent way.Tags "oneway" = false) (u v : Int)
    (t : Weight) (h : (u, v, t) ∈ emittedEdges (walkStep dist way c prev nextNode).2) :
    (v, u, t) ∈ emittedEdges (walkStep dist way c prev nextNode).2 := by
  unfold walkStep at h ⊢
  simp only [hway, Bool.false_eq_true, if_false] at h ⊢
  split_ifs at h ⊢ <;> simp [emittedEdges] at h ⊢
  rcases h with ⟨h1, h2, h3⟩ | ⟨h1, h2, h3⟩
  · right; exact ⟨h2, h1, h3⟩
  · left; exact ⟨h2, h1, h3⟩

theorem walkLoop_edges_sym (dist : Point → Point → ℚ) (way : Way)
    (hway : tagPresent way.Tags "oneway" = false) (u v : Int) (t : Weight) :
    ∀ (rest : List Node) (c : Cursor) (prev : Node),
      (u, v, t) ∈ emittedEdges (walkLoop dist way c prev rest) →
        (v, u, t) ∈ emittedEdges (walkLoop dist way c prev rest) := by
  intro rest
  induction rest with
  | nil => intro c prev h; simp [walkLoop, emittedEdges] at h
  | cons nextNode rest ih =>
    intro c prev h
    unfold walkLoop at h ⊢
    rw [emittedEdges_append] at h ⊢
    rcases List.mem_append.1 h with h | h
    · exact List.mem_append_left _ (walkStep_edges_sym dist way c prev nextNode hway u v t h)
    · exact List.mem_append_right _ (ih _ _ h)

theorem travelTime_pos (segmentDist : ℚ) (MaxSpeed : Int) (hd : 0 ≤ segmentDist)
    (hs : 1 ≤ MaxSpeed) (hz : travelTime segmentDist MaxSpeed ≠ .fin 0) :
    (travelTime segmentDist MaxSpeed).Positive := by
  have hs0 : MaxSpeed ≠ 0 := by omega
  have hsq : (0 : ℚ) < (MaxSpeed : ℚ) := by exact_mod_cast (by omega : 0 < MaxSpeed)
  simp only [travelTime, hs0, if_false, ne_eq, Weight.fin.injEq] at hz ⊢
  simp only [Weight.Positive]
  have hne : segmentDist ≠ 0 := by
    intro h0; apply hz; rw [h0]; simp
  exact div_pos (lt_of_le_of_ne hd (Ne.symm hne)) hsq

theorem walkStep_pos (dist : Point → Point → ℚ) (way : Way) (c : Cursor)
    (prev nextNode : Node) (hdist : ∀ p q, 0 ≤ dist p q) (hs : 1 ≤ way.MaxSpeed)
    (hc : 0 ≤ c.segmentDist) :
    0 ≤ (walkStep dist way c prev nextNode).1.segmentDist ∧
      ∀ e ∈ emittedEdges (walkStep dist way c prev nextNode).2, e.2.2.Positive := by
  have hseg : 0 ≤ c.segmentDist + dist prev.Point nextNode.Point :=
    add_nonneg hc (hdist _ _)
  unfold walkStep
  simp only
  split_ifs with h1 h2 h3
  · simp [emittedEdges, hseg]
  · simp only [le_refl, true_and, List.cons_append, List.nil_append, emittedEdges,
      List.mem_singleton, forall_eq]
    exact travelTime_pos _ _ hseg hs h2
  · simp only [le_refl, true_and, List.cons_append, List.nil_append, emittedEdges,
      List.mem_cons, List.mem_singleton, forall_eq_or_imp, forall_eq]
    exact ⟨travelTime_pos _ _ hseg hs h2, travelTime_pos _ _ hseg hs h2, by simp⟩
  · simp [emittedEdges, hseg]

theorem walkLoop_pos (dist : Point → Point → ℚ) (way : Way)
    (hdist : ∀ p q, 0 ≤ dist p q) (hs : 1 ≤ way.MaxSpeed) :
    ∀ (rest : List Node) (c : Cursor) (prev : Node), 0 ≤ c.segmentDist →
      ∀ e ∈ emittedEdges (walkLoop dist way c prev rest), e.2.2.Positive := by
  intro rest
  induction rest with
  | nil => intro c prev _ e he; simp [walkLoop, emittedEdges] at he
  | cons nextNode rest ih =>
    intro c prev hc e he
    obtain ⟨h1, h2⟩ := walkStep_pos dist way c prev nextNode hdist hs hc
    unfold walkLoop at he
    rw [emittedEdges_append] at he
    rcases List.mem_append.1 he with he | he
    · exact h2 e he
    · exact ih _ _ h1 e he

theorem walkLoop_consecutive (dist : Point → Point → ℚ) (way : Way) :
    ∀ (rest : List Node) (prev : Node), (∀ n ∈ rest, 0 < n.Ways.length) →
      List.Chain (NonZeroStep dist way) prev rest →
        walkLoop dist way { curNode := prev, segmentDist := 0 } prev rest =
          consecutiveOps dist way prev rest := by
  intro rest
  induction rest with
  | nil => intro prev _ _; rfl
  | cons nextNode rest ih =>
    intro prev hways hchain
    obtain ⟨hnz, hrest⟩ := List.chain_cons.1 hchain
    have hpos := hways nextNode (List.mem_cons_self _ _)
    have hstep : walkStep dist way { curNode := prev, segmentDist := 0 } prev nextNode =
        ({ curNode := nextNode, segmentDist := 0 },
          [.addNode prev.ID, .addNode nextNode.ID,
           .addEdge prev.ID nextNode.ID
             (travelTime (dist prev.Point nextNode.Point) way.MaxSpeed)] ++
          (if tagPresent way.Tags "oneway" then []
           else [.addEdge nextNode.ID prev.ID
             (travelTime (dist prev.Point nextNode.Point) way.MaxSpeed)])) := by
      unfold NonZeroStep at hnz
      unfold walkStep
      simp only [zero_add, gt_iff_lt, hpos, if_true, hnz, if_false]
    unfold walkLoop consecutiveOps
    rw [hstep]
    simp only
    rw [ih nextNode (fun n hn => hways n (List.mem_cons_of_mem _ hn)) hrest]

theorem consecutiveOps_edges (dist : Point → Point → ℚ) (way : Way) :
    ∀ (rest : List Node) (prev : Node) (i : Nat) (hi : i + 1 < (prev :: rest).length),
      ((prev :: rest)[i].ID, (prev :: rest)[i + 1].ID,
        travelTime (dist (prev :: rest)[i].Point (prev :: rest)[i + 1].Point) way.MaxSpeed) ∈
        emittedEdges (consecutiveOps dist way prev rest) := by
  intro rest
  induction rest with
  | nil => intro prev i hi; simp at hi
  | cons nextNode rest ih =>
    intro prev i hi
    unfold consecutiveOps
    rw [emittedEdges_append, emittedEdges_append]
    cases i with
    | zero =>
      apply List.mem_append_left
      apply List.mem_append_left
      simp [emittedEdges]
    | succ j =>
      apply List.mem_append_right
      have := ih nextNode j (by simpa using hi)
      simpa using this

/-! ## Lemmas on `MapMatch` -/

theorem matchLoop_found (nn : State → Point → Option Int)
    (dijkstra : Graph → Int → Int → Except String (List Int)) (st : State)
    (hnn : ∀ p id, nn st p = some id → st.nodeGraph.nodes id = true) :
    ∀ (rest : List Point) (originNode : Int) (matched : List Point),
      matchLoop nn dijkstra st originNode rest matched ≠ .panic .originMissing ∧
        matchLoop nn dijkstra st originNode rest matched ≠ .panic .destMissing := by
  intro rest
  induction rest with
  | nil => intro o m; simp [matchLoop]
  | cons p rest ih =>
    intro o m
    unfold matchLoop
    cases hp : nn st p with
    | none => simp
    | some d =>
      simp only [hnn p d hp, Bool.true_eq_false, if_false]
      cases hd : dijkstra st.nodeGraph o d with
      | error msg => simp
      | ok ids =>
        simp only
        cases hpp : pathPoints st.nodesIndex ids with
        | none => simp
        | some pts => exact ih d (m ++ pts)

theorem pathPoints_ends (idx : Int → Option Node) :
    ∀ (path : List Int) (seg : List Point), pathPoints idx path = some seg →
      (∀ a, path.head? = some a → ∃ n, idx a = some n ∧ seg.head? = some n.Point) ∧
        (∀ b, path.getLast? = some b → ∃ n, idx b = some n ∧ seg.getLast? = some n.Point) := by
  intro path
  induction path with
  | nil => intro seg _; simp
  | cons id rest ih =>
    intro seg h
    unfold pathPoints at h
    simp only [mapOption] at h
    cases hn : idx id with
    | none => simp [hn] at h
    | some n =>
      simp only [hn, Option.map_some'] at h
      cases hr : mapOption (fun nodeID => (idx nodeID).map (·.Point)) rest with
      | none => simp [hr] at h
      | some pts =>
        simp only [hr, Option.some.injEq] at h
        subst h
        obtain ⟨-, ih2⟩ := ih pts hr
        constructor
        · intro a ha
          simp only [List.head?_cons, Option.some.injEq] at ha
          subst ha
          exact ⟨n, hn, rfl⟩
        · intro b hb
          cases rest with
          | nil =>
            simp only [List.getLast?_singleton, Option.some.injEq] at hb
            subst hb
            simp only [mapOption, Option.some.injEq] at hr
            subst hr
            exact ⟨n, hn, rfl⟩
          | cons id2 rest2 =>
            rw [List.getLast?_cons_cons] at hb
            obtain ⟨m, hm1, hm2⟩ := ih2 b hb
            refine ⟨m, hm1, ?_⟩
            cases pts with
            | nil => simp at hm2
            | cons q qs => rw [List.getLast?_cons_cons]; exact hm2

theorem matchLoop_ok (nn : State → Point → Option Int)
    (dijkstra : Graph → Int → Int → Except String (List Int)) (st : State) :
    ∀ (rest : List Point) (originNode : Int) (matched R : List Point),
      matchLoop nn dijkstra st originNode rest matched = .ok R →
        ∃ snaps paths segs, rest.map (nn st) = snaps.map some ∧
          List.Forall₂ (fun hop path => dijkstra st.nodeGraph hop.1 hop.2 = .ok path)
            (hops (originNode :: snaps)) paths ∧
          List.Forall₂ (fun path seg => pathPoints st.nodesIndex path = some seg) paths segs ∧
          R = matched ++ segs.flatten := by
  intro rest
  induction rest with
  | nil =>
    intro o m R h
    simp only [matchLoop, MatchResult.ok.injEq] at h
    exact ⟨[], [], [], rfl, by simp [hops], List.Forall₂.nil, by simp [h]⟩
  | cons p rest ih =>
    intro o m R h
    unfold matchLoop at h
    cases hp : nn st p with
    | none => simp [hp] at h
    | some d =>
      simp only [hp] at h
      split_ifs at h
      cases hd : dijkstra st.nodeGraph o d with
      | error msg => simp [hd] at h
      | ok ids =>
        simp only [hd] at h
        cases hpp : pathPoints st.nodesIndex ids with
        | none => simp [hpp] at h
        | some pts =>
          simp only [hpp] at h
          obtain ⟨snaps, paths, segs, h1, h2, h3, h4⟩ := ih d (m ++ pts) R h
          refine ⟨d :: snaps, ids :: paths, pts :: segs, by simp [hp, h1], ?_,
            List.Forall₂.cons hpp h3, by simp [h4]⟩
          simp only [hops]
          exact List.Forall₂.cons hd h2

theorem spans_head (idx : Int → Option Node) (a b : Int) (snaps : List Int)
    (segs : List (List Point)) (h : List.Forall₂ (Spans idx) (hops (a :: b :: snaps)) segs) :
    ∃ n, idx a = some n ∧ segs.flatten.head? = some n.Point := by
  simp only [hops] at h
  obtain ⟨seg, segs1, hab, -, rfl⟩ := List.forall₂_cons_left_iff.1 h
  obtain ⟨na, nb, h1, h2, h3, h4⟩ := hab
  refine ⟨na, h1, ?_⟩
  cases seg with
  | nil => simp at h3
  | cons q qs => simpa using h3

theorem spans_last (idx : Int → Option Node) :
    ∀ (snaps : List Int) (a b : Int) (segs : List (List Point)),
      List.Forall₂ (Spans idx) (hops (a :: b :: snaps)) segs →
        ∃ n, ((a :: b :: snaps).getLast?.bind idx) = some n ∧
          segs.flatten.getLast? = some n.Point := by
  intro snaps
  induction snaps with
  | nil =>
    intro a b segs h
    simp only [hops] at h
    obtain ⟨seg, segs1, hab, hrest, rfl⟩ := List.forall₂_cons_left_iff.1 h
    cases hrest
    obtain ⟨na, nb, h1, h2, h3, h4⟩ := hab
    exact ⟨nb, by simpa using h2, by simpa using h4⟩
  | cons c snaps ih =>
    intro a b segs h
    have hh : hops (a :: b :: c :: snaps) = (a, b) :: hops (b :: c :: snaps) := rfl
    rw [hh] at h
    obtain ⟨seg, segs1, hab, hrest, rfl⟩ := List.forall₂_cons_left_iff.1 h
    obtain ⟨n, hn1, hn2⟩ := ih b c segs1 hrest
    refine ⟨n, by simpa using hn1, ?_⟩
    rw [List.flatten_cons, List.getLast?_append, hn2]
    rfl

theorem spans_join (idx : Int → Option Node) :
    ∀ (i : Nat) (snaps : List Int) (segs : List (List Point)),
      List.Forall₂ (Spans idx) (hops snaps) segs → 0 < i → (h2 : i + 1 < snaps.length) →
        ∃ n pre post, idx snaps[i] = some n ∧
          segs.flatten = pre ++ n.Point :: n.Point :: post ∧
          pre.length + 1 = (segs.take i).flatten.length := by
  intro i
  induction i with
  | zero => intro snaps segs _ h1; omega
  | succ j ih =>
    intro snaps segs h _ h2
    match snaps, h, h2 with
    | a :: b :: c :: rest, h, h2 =>
      have hh : hops (a :: b :: c :: rest) = (a, b) :: hops (b :: c :: rest) := rfl
      rw [hh] at h
      obtain ⟨seg, segs1, hab, hrest, rfl⟩ := List.forall₂_cons_left_iff.1 h
      cases j with
      | zero =>
        have hh2 : hops (b :: c :: rest) = (b, c) :: hops (c :: rest) := rfl
        rw [hh2] at hrest
        obtain ⟨seg2, segs2, hbc, -, rfl⟩ := List.forall₂_cons_left_iff.1 hrest
        obtain ⟨na, nb, -, h2b, -, h4⟩ := hab
        obtain ⟨nb2, nc, h1b, -, h3, -⟩ := hbc
        have hnb : nb2 = nb := by
          have := h1b.symm.trans h2b
          simpa using this
        subst hnb
        obtain ⟨pre, hpre⟩ : ∃ pre, seg = pre ++ [nb2.Point] := by
          rcases List.eq_nil_or_concat seg with hnil | ⟨pre, q, hq⟩
          · subst hnil; simp at h4
          · subst hq
            simp only [List.concat_eq_append, List.getLast?_append, List.getLast?_singleton,
              Option.or, Option.some.injEq] at h4
            exact ⟨pre, by simp [h4]⟩
        obtain ⟨post, hpost⟩ : ∃ post, seg2 = nb2.Point :: post := by
          cases seg2 with
          | nil => simp at h3
          | cons q qs => simp at h3; exact ⟨qs, by rw [h3]⟩
        refine ⟨nb2, pre, post ++ segs2.flatten, by simpa using h2b, ?_, ?_⟩
        · simp [hpre, hpost]
        · simp [hpre]
      | succ k =>
        obtain ⟨n, pre, post, hn, hflat, hlen⟩ :=
          ih (b :: c :: rest) segs1 hrest (Nat.succ_pos k) (by simpa using h2)
        refine ⟨n, seg ++ pre, post, by simpa using hn, ?_, ?_⟩
        · simp [hflat]
        · simp only [List.length_append, List.take_succ_cons, List.flatten_cons]
          omega

theorem matchLoop_validation (nn : State → Point → Option Int)
    (dijkstra : Graph → Int → Int → Except String (List Int)) (st : State) :
    ∀ (rest : List Point) (originNode : Int) (matched : List Point),
      matchLoop nn dijkstra st originNode rest matched ≠ .error .needTwoPoints := by
  intro rest
  induction rest with
  | nil => intro o m; simp [matchLoop]
  | cons p rest ih =>
    intro o m
    unfold matchLoop
    cases hp : nn st p with
    | none => simp
    | some d =>
      simp only
      split_ifs
      · simp
      · cases hd : dijkstra st.nodeGraph o d with
        | error msg => simp
        | ok ids =>
          simp only
          cases hpp : pathPoints st.nodesIndex ids with
          | none => simp
          | some pts => exact ih d (m ++ pts)

theorem getWaySpeed_fallback (wayType waySpeed : String) (h : Atoi waySpeed = none) :
    getWaySpeed wayType waySpeed = (WAY_SPEED.lookup (stripMph wayType)).getD 25 := by
  unfold getWaySpeed
  simp only [h]
  cases WAY_SPEED.lookup (stripMph wayType) <;> rfl

theorem getWaySpeed_parsed (wayType waySpeed : String) (n : Int)
    (h : Atoi waySpeed = some n) : getWaySpeed wayType waySpeed = n := by
  unfold getWaySpeed
  simp only [h]

theorem mem_of_lookup (key : String) (speed : Int) :
    ∀ table : List (String × Int), table.lookup key = some speed →
      speed ∈ table.map (·.2) := by
  intro table
  induction table with
  | nil => intro h; simp at h
  | cons entry rest ih =>
    intro h
    obtain ⟨k, v⟩ := entry
    by_cases hk : key == k
    · simp only [List.lookup, hk, Option.some.injEq] at h
      simp [h]
    · simp only [List.lookup, hk] at h
      exact List.mem_cons_of_mem _ (ih h)

theorem lookup_WAY_SPEED_pos (key : String) (speed : Int)
    (h : WAY_SPEED.lookup key = some speed) : 1 ≤ speed := by
  have hall : ∀ s ∈ WAY_SPEED.map (·.2), 1 ≤ s := by decide
  exact hall speed (mem_of_lookup key speed WAY_SPEED h)

theorem MapMatch_short (nn : State → Point → Option Int)
    (dijkstra : Graph → Int → Int → Except String (List Int)) (st : State)
    (points : List Point) (h : points.length < 2) :
    MapMatch nn dijkstra st points = .error .needTwoPoints := by
  simp [MapMatch, h]

/-! ## The claims -/

/-- C1: on fewer than two points `MapMatch` returns the validation error and no
points, whatever the nearest-neighbour query and the router are (neither is
consulted); on two points or more it does not return that error. -/
theorem C1_MapMatch_validation (nn : State → Point → Option Int)
    (dijkstra : Graph → Int → Int → Except String (List Int)) (st : State)
    (points : List Point) :
    (points.length < 2 → MapMatch nn dijkstra st points = .error .needTwoPoints) ∧
      (2 ≤ points.length → MapMatch nn dijkstra st points ≠ .error .needTwoPoints) := by
  constructor
  · exact MapMatch_short nn dijkstra st points
  · intro h
    unfold MapMatch
    have h2 : ¬ points.length < 2 := by omega
    simp only [h2, if_false]
    cases points with
    | nil => simp at h
    | cons p rest =>
      simp only
      cases hp : nn st p with
      | none => simp
      | some o =>
        simp only
        split_ifs
        · simp
        · exact matchLoop_validation nn dijkstra st rest o []

/-- C1 at the single point of scenario S4, in a state where any snap would
panic, and at two points. -/
theorem C1_witness :
    MapMatch (fun _ _ => none) directRoute State.init [⟨0, 0⟩] = .error .needTwoPoints ∧
      MapMatch (fun _ _ => none) directRoute State.init [⟨0, 0⟩, ⟨0, 1⟩] ≠
        .error .needTwoPoints :=
  ⟨(C1_MapMatch_validation (fun _ _ => none) directRoute State.init [⟨0, 0⟩]).1 (by decide),
   (C1_MapMatch_validation (fun _ _ => none) directRoute State.init [⟨0, 0⟩, ⟨0, 1⟩]).2
     (by decide)⟩

/-- C2, as the code has it: `getWaySpeed` returns a speed of at least 1 unless
the `maxspeed` text parses as an integer below 1, which it then returns; so a
retained way has `MaxSpeed ≥ 1` unless its `maxspeed` tag is such a numeral. -/
theorem C2_speed_at_least_one :
    (∀ wayType waySpeed : String,
      (∀ n, Atoi waySpeed = some n → 1 ≤ n) → 1 ≤ getWaySpeed wayType waySpeed) ∧
    (∀ wayType waySpeed : String, ∀ n, Atoi waySpeed = some n → n < 1 →
      getWaySpeed wayType waySpeed = n) ∧
    (∀ (dist : Point → Point → ℚ) (input : List Element) (st : State),
      ParseData dist input = some st → ∀ way ∈ st.ways,
        (∀ n, Atoi (tagValue way.Tags "maxspeed") = some n → 1 ≤ n) → 1 ≤ way.MaxSpeed) := by
  have h1 : ∀ wayType waySpeed : String,
      (∀ n, Atoi waySpeed = some n → 1 ≤ n) → 1 ≤ getWaySpeed wayType waySpeed := by
    intro wayType waySpeed h
    cases ha : Atoi waySpeed with
    | some n => rw [getWaySpeed_parsed _ _ n ha]; exact h n ha
    | none =>
      rw [getWaySpeed_fallback _ _ ha]
      cases hl : WAY_SPEED.lookup (stripMph wayType) with
      | none => decide
      | some speed => exact lookup_WAY_SPEED_pos _ _ hl
  refine ⟨h1, fun wayType waySpeed n ha _ => getWaySpeed_parsed _ _ n ha, ?_⟩
  intro dist input st h way hw hn
  obtain ⟨-, -, hall⟩ := ParseData_built dist input st h
  obtain ⟨-, -, hspeed, -, -⟩ := hall way hw
  rw [hspeed]
  exact h1 _ _ hn

/-- C2 at scenario S6: a `service` way without `maxspeed`. -/
theorem C2_witness : 1 ≤ getWaySpeed "service" "" :=
  C2_speed_at_least_one.1 "service" "" (by decide)

/-- C2 fails as stated: `maxspeed=0` gives the speed 0 and `maxspeed=-5` the
speed -5, and the way is retained with that speed. -/
theorem C2_counterexample :
    getWaySpeed "residential" "0" = 0 ∧ getWaySpeed "residential" "-5" = -5 ∧
      (ParseData flatDist
        [.node 1 0 0 [], .node 2 0 1 [],
         .way 7 [1, 2] [("highway", "residential"), ("maxspeed", "0")]]).map
        (fun st => st.ways.map (·.MaxSpeed)) = some [0] := by
  refine ⟨by decide, by decide, by with_unfolding_all decide⟩

/-- C3, as the code has it: when `maxspeed` is the decimal text of a positive
integer `n` that a Go `int` holds (`n < 2^63`), `getWaySpeed` returns `n`
whatever the highway value; when `Atoi` reports an error on the `maxspeed` text
(the empty text of an absent tag included) it returns the table value, which
is 55, 35, 25 or 15 by road class, and no accepted highway value takes the
default of a missing table entry. -/
theorem C3_speed_rule :
    (∀ (n : Nat) (wayType : String), 0 < n → n < 2 ^ 63 →
      getWaySpeed wayType (toString n) = (n : Int)) ∧
    (∀ waySpeed : String, Atoi waySpeed = none →
      (∀ wayType ∈ ["motorway", "trunk", "motorway_link", "trunk_link"],
        getWaySpeed wayType waySpeed = 55) ∧
      (∀ wayType ∈ ["primary", "primary_link"], getWaySpeed wayType waySpeed = 35) ∧
      (∀ wayType ∈ ["secondary", "secondary_link", "tertiary", "tertiary_link",
        "residential"], getWaySpeed wayType waySpeed = 25) ∧
      getWaySpeed "service" waySpeed = 15) ∧
    Atoi "" = none ∧
    (∀ wayType ∈ VALID_WAYS, (WAY_SPEED.lookup (stripMph wayType)).isSome = true) ∧
    (∀ wayType ∈ VALID_WAYS, wayType ∈
      ["motorway", "trunk", "motorway_link", "trunk_link", "primary", "primary_link",
       "secondary", "secondary_link", "tertiary", "tertiary_link", "residential",
       "service"]) := by
  refine ⟨?_, ?_, by decide, by decide, by decide⟩
  · intro n wayType _ hn
    have h := Atoi_toString n
    have hc : n < intCutoff := hn
    rw [if_pos hc] at h
    exact getWaySpeed_parsed _ _ _ h
  · intro waySpeed h
    refine ⟨?_, ?_, ?_, ?_⟩
    · intro wayType hw
      rw [getWaySpeed_fallback _ _ h]
      revert wayType
      decide
    · intro wayType hw
      rw [getWaySpeed_fallback _ _ h]
      revert wayType
      decide
    · intro wayType hw
      rw [getWaySpeed_fallback _ _ h]
      revert wayType
      decide
    · rw [getWaySpeed_fallback _ _ h]
      decide

/-- C3 at scenario S6: `maxspeed=45` gives 45 on a `service` way, and a
`service` way without `maxspeed` gets 15. -/
theorem C3_witness :
    getWaySpeed "service" (toString 45) = 45 ∧ getWaySpeed "service" "" = 15 :=
  ⟨C3_speed_rule.1 45 "service" (by decide) (by decide),
   (C3_speed_rule.2.1 "" (by decide)).2.2.2⟩

/-- C3 fails as stated: 9223372036854775808 is a positive integer, `Atoi`
reports a range error on its decimal text, and the way gets the table value of
its highway type instead. -/
theorem C3_counterexample :
    toString (9223372036854775808 : Nat) = "9223372036854775808" ∧
      (0 : Nat) < 9223372036854775808 ∧
      Atoi (toString (9223372036854775808 : Nat)) = none ∧
      getWaySpeed "service" (toString (9223372036854775808 : Nat)) = 15 := by
  refine ⟨by decide, by decide, by decide, by decide⟩

theorem flatDist_nonneg (p q : Point) : 0 ≤ flatDist p q :=
  add_nonneg (abs_nonneg _) (abs_nonneg _)

theorem tState_built : ParseData flatDist tNetwork = some tState := by
  unfold tState
  exact (Option.some_get _).symm

theorem map_eq_some_elim {α β : Type} {o : Option α} {f : α → β} {b : β} {a : α}
    (h : o.map f = some b) (ha : o = some a) : f a = b := by
  subst ha
  simpa using h

theorem negativeSpeed_ops (dist : Point → Point → ℚ) (h : 0 < dist ⟨0, 0⟩ ⟨0, 1⟩) :
    ∃ st, ParseData dist negativeSpeedInput = some st ∧
      st.nodeGraph = Graph.empty.applyAll
        [.addNode 1, .addNode 2, .addEdge 1 2 (.fin (dist ⟨0, 0⟩ ⟨0, 1⟩ / (-5 : ℚ))),
         .addEdge 2 1 (.fin (dist ⟨0, 0⟩ ⟨0, 1⟩ / (-5 : ℚ)))] := by
  obtain ⟨st, hp⟩ := Option.isSome_iff_exists.1
    (show (ParseData dist negativeSpeedInput).isSome = true by with_unfolding_all rfl)
  have hways : st.ways = [Way.mk 7 [1, 2] [("highway", "residential"), ("maxspeed", "-5")]
      [1, 2] (0 + (dist ⟨0, 0⟩ ⟨0, 1⟩ + 0)) (-5)] :=
    map_eq_some_elim (f := (·.ways))
      (show (ParseData dist negativeSpeedInput).map (·.ways) = _ by with_unfolding_all rfl) hp
  have h1 : st.nodesIndex 1 = some (Node.mk 1 ⟨0, 0⟩ [] [0]) :=
    map_eq_some_elim (f := fun st => st.nodesIndex 1)
      (show (ParseData dist negativeSpeedInput).map (fun st => st.nodesIndex 1) = _ by
        with_unfolding_all rfl) hp
  have h2 : st.nodesIndex 2 = some (Node.mk 2 ⟨0, 1⟩ [] [0]) :=
    map_eq_some_elim (f := fun st => st.nodesIndex 2)
      (show (ParseData dist negativeSpeedInput).map (fun st => st.nodesIndex 2) = _ by
        with_unfolding_all rfl) hp
  obtain ⟨ops, -, hops, hg⟩ := ParseData_phases dist _ st hp
  refine ⟨st, hp, ?_⟩
  rw [hg]
  have hne : dist ⟨0, 0⟩ ⟨0, 1⟩ ≠ 0 := ne_of_gt h
  rw [hways] at hops
  simp [graphOps, wayOps, mapOption, h1, h2, walk, walkLoop, walkStep, travelTime,
    tagPresent, hne] at hops
  rw [← hops]

theorem built_edges_emitted (dist : Point → Point → ℚ) (input : List Element) (st : State)
    (h : ParseData dist input = some st) (u v : Int) (w : Weight)
    (he : st.nodeGraph.edges u v = some w) :
    ∃ way ∈ st.ways, ∃ ops, wayOps dist st.nodesIndex way = some ops ∧
      (u, v, w) ∈ emittedEdges ops := by
  obtain ⟨ops, -, hops, hg⟩ := ParseData_phases dist input st h
  rw [hg] at he
  rcases applyAll_edges ops Graph.empty u v w he with h0 | h0
  · simp [Graph.empty] at h0
  · obtain ⟨way, hw, a, ha, hmem⟩ :=
      (graphOps_mem dist st.nodesIndex st.ways ops hops).2 _ (mem_emittedEdges.1 h0)
    exact ⟨way, hw, a, ha, mem_emittedEdges.2 hmem⟩

/-- C4, as the code has it: with non-negative distances, every edge that the
walk of a retained way with `MaxSpeed ≥ 1` adds has a weight greater than zero;
when all retained ways have `MaxSpeed ≥ 1`, so has every edge of the graph. -/
theorem C4_positive_weights (dist : Point → Point → ℚ) (hdist : ∀ p q, 0 ≤ dist p q)
    (input : List Element) (st : State) (h : ParseData dist input = some st) :
    (∀ way ∈ st.ways, 1 ≤ way.MaxSpeed →
      ∃ ops, wayOps dist st.nodesIndex way = some ops ∧
        ∀ e ∈ emittedEdges ops, e.2.2.Positive) ∧
    ((∀ way ∈ st.ways, 1 ≤ way.MaxSpeed) →
      ∀ u v w, st.nodeGraph.edges u v = some w → w.Positive) := by
  have h1 : ∀ way ∈ st.ways, 1 ≤ way.MaxSpeed →
      ∃ ops, wayOps dist st.nodesIndex way = some ops ∧
        ∀ e ∈ emittedEdges ops, e.2.2.Positive := by
    intro way hw hs
    obtain ⟨f, r, -, -, -, -, hops⟩ := built_wayOps dist input st h way hw
    exact ⟨_, hops, walkLoop_pos dist way hdist hs r _ f (le_refl 0)⟩
  refine ⟨h1, ?_⟩
  intro hall u v w he
  obtain ⟨way, hw, ops, hops, hmem⟩ := built_edges_emitted dist input st h u v w he
  obtain ⟨ops1, hops1, hpos⟩ := h1 way hw (hall way hw)
  rw [hops] at hops1
  cases hops1
  exact hpos _ hmem

/-- C4 on the "T" network: the edge from node 1 to node 2 has the positive
weight 1/35. -/
theorem C4_witness :
    ∃ w, tState.nodeGraph.edges 1 2 = some w ∧ w.Positive :=
  ⟨.fin (1 / 35), by with_unfolding_all decide,
    (C4_positive_weights flatDist flatDist_nonneg tNetwork tState tState_built).2
      (by with_unfolding_all decide) 1 2 (.fin (1 / 35)) (by with_unfolding_all decide)⟩

/-- C4 fails as stated: a retained way tagged `maxspeed=-5` between two nodes a
positive distance apart gets an edge of negative weight, here -1/5, and so for
every distance function that separates the two nodes. -/
theorem C4_counterexample :
    ((ParseData flatDist negativeSpeedInput).map (fun st => st.nodeGraph.edges 1 2) =
        some (some (.fin (-1 / 5))) ∧ ¬ (Weight.fin (-1 / 5)).Positive) ∧
      (∀ dist : Point → Point → ℚ, 0 < dist ⟨0, 0⟩ ⟨0, 1⟩ →
        ∃ st w, ParseData dist negativeSpeedInput = some st ∧
          st.nodeGraph.edges 1 2 = some w ∧ ¬ w.Positive) := by
  refine ⟨⟨by with_unfolding_all decide, by with_unfolding_all decide⟩, ?_⟩
  intro dist h
  obtain ⟨st, hp, hg⟩ := negativeSpeed_ops dist h
  refine ⟨st, .fin (dist ⟨0, 0⟩ ⟨0, 1⟩ / (-5 : ℚ)), hp, ?_, ?_⟩
  · rw [hg]
    simp [Graph.applyAll, Graph.apply]
  · simp only [Weight.Positive, not_lt]
    exact div_nonpos_of_nonneg_of_nonpos (le_of_lt h) (by norm_num)

/-- C5: the walk of a way without a `oneway` tag key adds the edge `(u, v)`
with weight `t` exactly when it adds `(v, u)` with weight `t`; and when no
retained way has a `oneway` tag, the built graph, in which a re-added edge
takes the last weight, has `(u, v)` exactly when it has `(v, u)`, with the
same weight. -/
theorem C5_symmetric_edges :
    (∀ (dist : Point → Point → ℚ) (way : Way) (nodes : List Node) (ops : List GraphOp),
      tagPresent way.Tags "oneway" = false → walk dist way nodes = some ops →
        ∀ u v t, (u, v, t) ∈ emittedEdges ops ↔ (v, u, t) ∈ emittedEdges ops) ∧
    (∀ (dist : Point → Point → ℚ) (input : List Element) (st : State),
      ParseData dist input = some st →
        (∀ way ∈ st.ways, tagPresent way.Tags "oneway" = false) →
          ∀ u v, st.nodeGraph.edges u v = st.nodeGraph.edges v u) := by
  constructor
  · intro dist way nodes ops hway hwalk u v t
    cases nodes with
    | nil => simp [walk] at hwalk
    | cons firstNode rest =>
      simp only [walk, Option.some.injEq] at hwalk
      subst hwalk
      exact ⟨walkLoop_edges_sym dist way hway u v t rest _ _,
        walkLoop_edges_sym dist way hway v u t rest _ _⟩
  · intro dist input st h hall
    obtain ⟨ops, -, hops, hg⟩ := ParseData_phases dist input st h
    rw [hg]
    exact graphOps_preserves Sym dist st.nodesIndex st.ways ops
      (fun way hw c prev nextNode g hgs =>
        walkStep_sym dist way c prev nextNode g (hall way hw) hgs)
      hops Graph.empty (fun _ _ => rfl)

/-- C5 on the "T" network, none of whose ways has a `oneway` tag: the edges
between nodes 1 and 2 agree, and so do the edges the walk of the way
`[2, 4]` adds. -/
theorem C5_witness :
    tState.nodeGraph.edges 1 2 = tState.nodeGraph.edges 2 1 ∧
      ((2, 4, Weight.fin (1 / 25)) ∈ emittedEdges
          (walkLoop flatDist (Way.mk 11 [2, 4] [("highway", "residential")] [2, 4] 1 25)
            ⟨Node.mk 2 ⟨0, 1⟩ [] [0, 1], 0⟩ (Node.mk 2 ⟨0, 1⟩ [] [0, 1])
            [Node.mk 4 ⟨1, 1⟩ [] [1]]) ↔
        (4, 2, Weight.fin (1 / 25)) ∈ emittedEdges
          (walkLoop flatDist (Way.mk 11 [2, 4] [("highway", "residential")] [2, 4] 1 25)
            ⟨Node.mk 2 ⟨0, 1⟩ [] [0, 1], 0⟩ (Node.mk 2 ⟨0, 1⟩ [] [0, 1])
            [Node.mk 4 ⟨1, 1⟩ [] [1]])) :=
  ⟨C5_symmetric_edges.2 flatDist tNetwork tState tState_built
      (by with_unfolding_all decide) 1 2,
   C5_symmetric_edges.1 flatDist
      (Way.mk 11 [2, 4] [("highway", "residential")] [2, 4] 1 25)
      [Node.mk 2 ⟨0, 1⟩ [] [0, 1], Node.mk 4 ⟨1, 1⟩ [] [1]] _ rfl rfl 2 4 (.fin (1 / 25))⟩

theorem coincident_ops (dist : Point → Point → ℚ) (h0 : dist ⟨0, 0⟩ ⟨0, 0⟩ = 0) :
    ∃ st, ParseData dist coincidentInput = some st ∧
      st.nodeGraph = Graph.empty.applyAll
        ([.addNode 1, .addNode 2] ++
          if dist ⟨0, 0⟩ ⟨0, 1⟩ = 0 then [.addNode 1, .addNode 3]
          else [.addNode 1, .addNode 3,
            .addEdge 1 3 (.fin (dist ⟨0, 0⟩ ⟨0, 1⟩ / (25 : ℚ))),
            .addEdge 3 1 (.fin (dist ⟨0, 0⟩ ⟨0, 1⟩ / (25 : ℚ)))]) := by
  obtain ⟨st, hp⟩ := Option.isSome_iff_exists.1
    (show (ParseData dist coincidentInput).isSome = true by with_unfolding_all rfl)
  have hways : st.ways = [Way.mk 7 [1, 2, 3] [("highway", "residential")]
      [1, 2, 3] (0 + (dist ⟨0, 0⟩ ⟨0, 0⟩ + (dist ⟨0, 0⟩ ⟨0, 1⟩ + 0))) 25] :=
    map_eq_some_elim (f := (·.ways))
      (show (ParseData dist coincidentInput).map (·.ways) = _ by with_unfolding_all rfl) hp
  have h1 : st.nodesIndex 1 = some (Node.mk 1 ⟨0, 0⟩ [] [0]) :=
    map_eq_some_elim (f := fun st => st.nodesIndex 1)
      (show (ParseData dist coincidentInput).map (fun st => st.nodesIndex 1) = _ by
        with_unfolding_all rfl) hp
  have h2 : st.nodesIndex 2 = some (Node.mk 2 ⟨0, 0⟩ [] [0]) :=
    map_eq_some_elim (f := fun st => st.nodesIndex 2)
      (show (ParseData dist coincidentInput).map (fun st => st.nodesIndex 2) = _ by
        with_unfolding_all rfl) hp
  have h3 : st.nodesIndex 3 = some (Node.mk 3 ⟨0, 1⟩ [] [0]) :=
    map_eq_some_elim (f := fun st => st.nodesIndex 3)
      (show (ParseData dist coincidentInput).map (fun st => st.nodesIndex 3) = _ by
        with_unfolding_all rfl) hp
  obtain ⟨ops, -, hops, hg⟩ := ParseData_phases dist _ st hp
  refine ⟨st, hp, ?_⟩
  rw [hg]
  rw [hways] at hops
  by_cases hz : dist ⟨0, 0⟩ ⟨0, 1⟩ = 0
  · simp [graphOps, wayOps, mapOption, h1, h2, h3, walk, walkLoop, walkStep, travelTime,
      tagPresent, h0, hz] at hops
    rw [← hops]
    simp [hz]
  · simp [graphOps, wayOps, mapOption, h1, h2, h3, walk, walkLoop, walkStep, travelTime,
      tagPresent, h0, hz] at hops
    rw [← hops]
    simp [hz]

/-- C6, as the code has it: in a built state every node of a retained way has a
back-reference, so every step of the walk is a candidate edge; when no
candidate travel time between consecutive nodes of the way is zero, the walk
makes exactly the calls of `consecutiveOps`, and so adds the edge from
`way.Nodes[i]` to `way.Nodes[i+1]` for every `i`. -/
theorem C6_consecutive_edges (dist : Point → Point → ℚ) (input : List Element)
    (st : State) (h : ParseData dist input = some st) (way : Way) (hw : way ∈ st.ways) :
    ∃ firstNode rest ops,
      mapOption st.nodesIndex way.Nodes = some (firstNode :: rest) ∧
      wayOps dist st.nodesIndex way = some ops ∧
      (∀ n ∈ firstNode :: rest, 0 < n.Ways.length) ∧
      (List.Chain (NonZeroStep dist way) firstNode rest →
        ops = consecutiveOps dist way firstNode rest ∧
        ∀ (i : Nat) (hi : i + 1 < (firstNode :: rest).length),
          ((firstNode :: rest)[i].ID, (firstNode :: rest)[i + 1].ID,
            travelTime (dist (firstNode :: rest)[i].Point (firstNode :: rest)[i + 1].Point)
              way.MaxSpeed) ∈ emittedEdges ops) := by
  obtain ⟨f, r, hm, -, -, hways, hops⟩ := built_wayOps dist input st h way hw
  refine ⟨f, r, _, hm, hops, hways, ?_⟩
  intro hchain
  have hc := walkLoop_consecutive dist way r f
    (fun n hn => hways n (List.mem_cons_of_mem _ hn)) hchain
  refine ⟨hc, ?_⟩
  intro i hi
  rw [hc]
  exact consecutiveOps_edges dist way r f i hi

/-- C6 fails as stated: on a way through the nodes 1, 2, 3 of which 1 and 2
coincide, the walk adds no edge from 1 to 2 and none from 2 to 3; the edge it
adds runs from 1 to 3.  So for every distance function that is zero between
coincident points. -/
theorem C6_counterexample :
    (ParseData flatDist coincidentInput).map
        (fun st => (st.ways.map (·.Nodes), st.nodeGraph.edges 1 2, st.nodeGraph.edges 2 3,
          st.nodeGraph.edges 1 3)) =
        some ([[1, 2, 3]], none, none, some (.fin (1 / 25))) ∧
      (∀ dist : Point → Point → ℚ, dist ⟨0, 0⟩ ⟨0, 0⟩ = 0 →
        ∃ st, ParseData dist coincidentInput = some st ∧
          st.nodeGraph.edges 1 2 = none ∧ st.nodeGraph.edges 2 3 = none) := by
  refine ⟨by with_unfolding_all decide, ?_⟩
  intro dist h0
  obtain ⟨st, hp, hg⟩ := coincident_ops dist h0
  refine ⟨st, hp, ?_, ?_⟩ <;>
  · rw [hg]
    by_cases hz : dist ⟨0, 0⟩ ⟨0, 1⟩ = 0 <;>
      simp [hz, Graph.applyAll, Graph.apply, Graph.empty]

/-- C6 on the "T" network: the walk of the way through the nodes 1, 2, 3 adds
the edge from 2 to 3, of weight 1/35. -/
theorem C6_witness :
    ∃ ops, wayOps flatDist tState.nodesIndex
        (Way.mk 10 [1, 2, 3] [("highway", "primary")] [1, 2, 3] 2 35) = some ops ∧
      (2, 3, Weight.fin (1 / 35)) ∈ emittedEdges ops := by
  obtain ⟨f, r, ops, hm, hops, -, himp⟩ :=
    C6_consecutive_edges flatDist tNetwork tState tState_built
      (Way.mk 10 [1, 2, 3] [("highway", "primary")] [1, 2, 3] 2 35)
      (by with_unfolding_all decide)
  have hm2 : mapOption tState.nodesIndex [1, 2, 3] =
      some [Node.mk 1 ⟨0, 0⟩ [] [0], Node.mk 2 ⟨0, 1⟩ [] [0, 1], Node.mk 3 ⟨0, 2⟩ [] [0]] := by
    with_unfolding_all decide
  have hfr := hm.symm.trans hm2
  simp only [Option.some.injEq, List.cons.injEq] at hfr
  obtain ⟨hf, hr⟩ := hfr
  subst hf; subst hr
  have hchain : List.Chain
      (NonZeroStep flatDist (Way.mk 10 [1, 2, 3] [("highway", "primary")] [1, 2, 3] 2 35))
      (Node.mk 1 ⟨0, 0⟩ [] [0]) [Node.mk 2 ⟨0, 1⟩ [] [0, 1], Node.mk 3 ⟨0, 2⟩ [] [0]] := by
    refine List.Chain.cons ?_ (List.Chain.cons ?_ List.Chain.nil) <;>
    · unfold NonZeroStep
      with_unfolding_all decide
  have hedge := (himp hchain).2 1 (by simp)
  have hval : travelTime (flatDist ⟨0, 1⟩ ⟨0, 2⟩) 35 = Weight.fin (1 / 35) := by
    with_unfolding_all decide
  simp only [List.getElem_cons_succ, List.getElem_cons_zero, hval] at hedge
  exact ⟨ops, hops, hedge⟩

theorem built_nodes_added (dist : Point → Point → ℚ) (input : List Element) (st : State)
    (h : ParseData dist input = some st) (way : Way) (hw : way ∈ st.ways) (id : Int)
    (hid : id ∈ way.Nodes) : st.nodeGraph.nodes id = true := by
  obtain ⟨ops, -, hops, hg⟩ := ParseData_phases dist input st h
  obtain ⟨f, r, -, hr, hmap, hways, hwo⟩ := built_wayOps dist input st h way hw
  obtain ⟨a, ha, hsub⟩ := (graphOps_mem dist st.nodesIndex st.ways ops hops).1 way hw
  rw [hwo] at ha
  cases ha
  obtain ⟨h1, h2⟩ := walkLoop_nodes dist way r { curNode := f, segmentDist := 0 } f
    (fun n hn => hways n (List.mem_cons_of_mem _ hn))
  have hem : id ∈ emittedNodes
      (walkLoop dist way { curNode := f, segmentDist := 0 } f r) := by
    rw [← hmap] at hid
    obtain ⟨n, hn, hnid⟩ := List.mem_map.1 hid
    subst hnid
    rcases List.mem_cons.1 hn with hn | hn
    · subst hn; exact h2 hr
    · exact h1 n hn
  rw [hg]
  exact (applyAll_nodes ops Graph.empty id).2
    (Or.inr (mem_emittedNodes.2 (hsub _ (mem_emittedNodes.1 hem))))

theorem closest_mem (idx : Int → Option Node) (p : Point) :
    ∀ (ids : List Int) (id : Int) (d : ℚ), closest idx p ids = some (id, d) → id ∈ ids := by
  intro ids
  induction ids with
  | nil => intro id d h; simp [closest] at h
  | cons j rest ih =>
    intro id d h
    unfold closest at h
    cases hj : idx j with
    | none =>
      simp only [hj] at h
      exact List.mem_cons_of_mem _ (ih id d h)
    | some n =>
      cases hc : closest idx p rest with
      | none =>
        simp only [hj, hc, Option.some.injEq, Prod.mk.injEq] at h
        simp [h.1]
      | some bd =>
        obtain ⟨b, e⟩ := bd
        simp only [hj, hc] at h
        split_ifs at h
        · simp only [Option.some.injEq, Prod.mk.injEq] at h
          simp [h.1]
        · simp only [Option.some.injEq, Prod.mk.injEq] at h
          obtain ⟨hb, he⟩ := h
          subst hb; subst he
          exact List.mem_cons_of_mem _ (ih _ _ hc)

theorem nearestFlat_mem (st : State) (p : Point) (id : Int)
    (h : nearestFlat st p = some id) : id ∈ st.rt := by
  unfold nearestFlat at h
  cases hc : closest st.nodesIndex p st.rt with
  | none => simp [hc] at h
  | some bd =>
    obtain ⟨b, d⟩ := bd
    simp only [hc, Option.map_some', Option.some.injEq] at h
    subst h
    exact closest_mem _ _ _ _ _ hc

/-- C7: a build in which every node id of every retained way is the id of a
decoded node returns; the nodes inserted into the R-tree are the nodes of the
retained ways, and each of them is a vertex of the graph.  Hence, when the
nearest-neighbour query returns entries of the R-tree, `MapMatch` never raises
the panic of an origin or a destination node missing from the graph. -/
theorem C7_snapped_nodes_in_graph (dist : Point → Point → ℚ) (input : List Element)
    (hres : ∀ way ∈ (input.foldl ingest State.init).ways, ∀ id ∈ way.NodeIDs,
      ((input.foldl ingest State.init).nodesIndex id).isSome = true) :
    ∃ st, ParseData dist input = some st ∧
      (∀ id, id ∈ st.rt ↔ ∃ way ∈ st.ways, id ∈ way.Nodes) ∧
      (∀ id ∈ st.rt, st.nodeGraph.nodes id = true) ∧
      ∀ (nn : State → Point → Option Int)
        (dijkstra : Graph → Int → Int → Except String (List Int)) (points : List Point),
        (∀ p id, nn st p = some id → id ∈ st.rt) →
          MapMatch nn dijkstra st points ≠ .panic .originMissing ∧
            MapMatch nn dijkstra st points ≠ .panic .destMissing := by
  obtain ⟨st, h⟩ := ParseData_isSome dist input hres
  obtain ⟨-, hrt, -⟩ := ParseData_built dist input st h
  have hiff : ∀ id, id ∈ st.rt ↔ ∃ way ∈ st.ways, id ∈ way.Nodes := by
    intro id
    rw [hrt, List.mem_flatten]
    constructor
    · rintro ⟨l, hl, hid⟩
      obtain ⟨way, hw, rfl⟩ := List.mem_map.1 hl
      exact ⟨way, hw, hid⟩
    · rintro ⟨way, hw, hid⟩
      exact ⟨way.Nodes, List.mem_map.2 ⟨way, hw, rfl⟩, hid⟩
  have hin : ∀ id ∈ st.rt, st.nodeGraph.nodes id = true := by
    intro id hid
    obtain ⟨way, hw, hmem⟩ := (hiff id).1 hid
    exact built_nodes_added dist input st h way hw id hmem
  refine ⟨st, h, hiff, hin, ?_⟩
  intro nn dijkstra points hnn
  have hfound : ∀ p id, nn st p = some id → st.nodeGraph.nodes id = true :=
    fun p id hp => hin id (hnn p id hp)
  unfold MapMatch
  split_ifs
  · simp
  · cases points with
    | nil => simp
    | cons p rest =>
      simp only
      cases hp : nn st p with
      | none => simp
      | some o =>
        simp only [hfound p o hp, Bool.true_eq_false, if_false]
        exact matchLoop_found nn dijkstra st hfound rest o []

/-- C7 on the "T" network: node 4 is in the R-tree and in the graph, and a match
between points closest to the nodes 1 and 4 does not raise the panic of a node
missing from the graph. -/
theorem C7_witness :
    4 ∈ tState.rt ∧ tState.nodeGraph.nodes 4 = true ∧
      MapMatch nearestFlat directRoute tState [⟨0, 0⟩, ⟨1, 1⟩] ≠ .panic .destMissing := by
  obtain ⟨st, h, -, hin, hmatch⟩ :=
    C7_snapped_nodes_in_graph flatDist tNetwork (by with_unfolding_all decide)
  have hst : st = tState := Option.some.inj (h.symm.trans tState_built)
  subst hst
  have h4 : (4 : Int) ∈ tState.rt := by with_unfolding_all decide
  exact ⟨h4, hin 4 h4,
    (hmatch nearestFlat directRoute [⟨0, 0⟩, ⟨1, 1⟩]
      (fun p id hp => nearestFlat_mem tState p id hp)).2⟩

theorem spans_of_routed (idx : Int → Option Node)
    (dijkstra : Graph → Int → Int → Except String (List Int)) (g : Graph)
    (hdij : ∀ a b path, dijkstra g a b = .ok path →
      path.head? = some a ∧ path.getLast? = some b) :
    ∀ (hs : List (Int × Int)) (paths : List (List Int)) (segs : List (List Point)),
      List.Forall₂ (fun hop path => dijkstra g hop.1 hop.2 = .ok path) hs paths →
      List.Forall₂ (fun path seg => pathPoints idx path = some seg) paths segs →
        List.Forall₂ (Spans idx) hs segs := by
  intro hs
  induction hs with
  | nil =>
    intro paths segs h1 h2
    cases h1
    cases h2
    exact List.Forall₂.nil
  | cons hop rest ih =>
    intro paths segs h1 h2
    obtain ⟨path, paths1, hp, hrest, rfl⟩ := List.forall₂_cons_left_iff.1 h1
    obtain ⟨seg, segs1, hs1, hrest2, rfl⟩ := List.forall₂_cons_left_iff.1 h2
    obtain ⟨hh, hl⟩ := hdij _ _ _ hp
    obtain ⟨e1, e2⟩ := pathPoints_ends idx path seg hs1
    obtain ⟨na, hna, hsa⟩ := e1 _ hh
    obtain ⟨nb, hnb, hsb⟩ := e2 _ hl
    exact List.Forall₂.cons ⟨na, nb, hna, hnb, hsa, hsb⟩ (ih paths1 segs1 hrest hrest2)

/-- C8: a successful `MapMatch` is given at least two points; every point snaps
to its nearest node, every hop between consecutive snapped nodes is routed, and
the result is the concatenation, hop after hop, of the coordinates of all the
nodes of the hop's path.  When every routed path starts at its source and ends
at its destination, the result begins at the coordinate of the node nearest to
the first point, ends at the coordinate of the node nearest to the last point,
and holds the coordinate of each join node twice in a row, at the end of one
hop and the start of the next. -/
theorem C8_match_concatenation (nn : State → Point → Option Int)
    (dijkstra : Graph → Int → Int → Except String (List Int)) (st : State)
    (points R : List Point) (h : MapMatch nn dijkstra st points = .ok R) :
    2 ≤ points.length ∧
    ∃ (snaps : List Int) (paths : List (List Int)) (segs : List (List Point)),
      points.map (nn st) = snaps.map some ∧
      paths.length + 1 = points.length ∧
      List.Forall₂ (fun hop path => dijkstra st.nodeGraph hop.1 hop.2 = .ok path)
        (hops snaps) paths ∧
      List.Forall₂ (fun path seg => pathPoints st.nodesIndex path = some seg) paths segs ∧
      R = segs.flatten ∧
      ((∀ a b path, dijkstra st.nodeGraph a b = .ok path →
          path.head? = some a ∧ path.getLast? = some b) →
        (∃ n, snaps.head?.bind st.nodesIndex = some n ∧ R.head? = some n.Point) ∧
        (∃ n, snaps.getLast?.bind st.nodesIndex = some n ∧ R.getLast? = some n.Point) ∧
        ∀ (i : Nat) (_ : 0 < i) (h2 : i + 1 < snaps.length),
          ∃ n pre post, st.nodesIndex snaps[i] = some n ∧
            R = pre ++ n.Point :: n.Point :: post ∧
            pre.length + 1 = (segs.take i).flatten.length) := by
  unfold MapMatch at h
  split_ifs at h with hlen
  cases points with
  | nil => simp at h
  | cons p rest =>
    simp only at h
    cases hp : nn st p with
    | none => simp [hp] at h
    | some o =>
      simp only [hp] at h
      split_ifs at h
      obtain ⟨snaps, paths, segs, h1, h2, h3, h4⟩ := matchLoop_ok nn dijkstra st rest o [] R h
      have hsl : snaps.length = rest.length := by
        have := congrArg List.length h1
        simpa using this.symm
      have hrest : 1 ≤ rest.length := by
        simp only [List.length_cons] at hlen
        omega
      refine ⟨by simp only [List.length_cons]; omega, o :: snaps, paths, segs,
        by simp [hp, h1], ?_, h2, h3, by simpa using h4, ?_⟩
      · have hl := h2.length_eq
        have hhops : ∀ l : List Int, (hops l).length + 1 = l.length ∨ l = [] := by
          intro l
          induction l with
          | nil => right; rfl
          | cons a t ih =>
            left
            cases t with
            | nil => simp [hops]
            | cons b t2 =>
              rcases ih with ih | ih
              · simp only [hops, List.length_cons] at ih ⊢; omega
              · simp at ih
        rcases hhops (o :: snaps) with hh | hh
        · simp only [List.length_cons] at hh ⊢
          omega
        · simp at hh
      · intro hdij
        have hspans := spans_of_routed st.nodesIndex dijkstra st.nodeGraph hdij _ _ _ h2 h3
        have hR : R = segs.flatten := by simpa using h4
        match snaps, hsl, hspans with
        | [], hsl, _ => simp at hsl; omega
        | b :: snaps1, _, hspans =>
          obtain ⟨n1, hn1, hh1⟩ := spans_head st.nodesIndex o b snaps1 segs hspans
          obtain ⟨n2, hn2, hh2⟩ := spans_last st.nodesIndex snaps1 o b segs hspans
          refine ⟨⟨n1, by simpa using hn1, by rw [hR]; exact hh1⟩,
            ⟨n2, hn2, by rw [hR]; exact hh2⟩, ?_⟩
          intro i hi h2i
          obtain ⟨n, pre, post, e1, e2, e3⟩ :=
            spans_join st.nodesIndex i (o :: b :: snaps1) segs hspans hi h2i
          exact ⟨n, pre, post, e1, by rw [hR]; exact e2, e3⟩

theorem directRoute_ends (g : Graph) (a b : Int) (path : List Int)
    (h : directRoute g a b = .ok path) : path.head? = some a ∧ path.getLast? = some b := by
  unfold directRoute at h
  split_ifs at h with h1 h2 h3
  · cases h
    simp [h2]
  · cases h
    simp

/-- C8 on the "T" network, for three points closest to the nodes 1, 2 and 4:
the match succeeds and the coordinate of the join node 2 stands twice in a row
in its result. -/
theorem C8_witness :
    MapMatch nearestFlat directRoute tState [⟨0, 0⟩, ⟨0, 1⟩, ⟨1, 1⟩] =
        .ok [⟨0, 0⟩, ⟨0, 1⟩, ⟨0, 1⟩, ⟨1, 1⟩] ∧
      ∃ n pre post, tState.nodesIndex 2 = some n ∧
        ([⟨0, 0⟩, ⟨0, 1⟩, ⟨0, 1⟩, ⟨1, 1⟩] : List Point) =
          pre ++ n.Point :: n.Point :: post := by
  have hR : MapMatch nearestFlat directRoute tState [⟨0, 0⟩, ⟨0, 1⟩, ⟨1, 1⟩] =
      .ok [⟨0, 0⟩, ⟨0, 1⟩, ⟨0, 1⟩, ⟨1, 1⟩] := by with_unfolding_all decide
  refine ⟨hR, ?_⟩
  obtain ⟨-, snaps, paths, segs, h1, -, -, -, -, himp⟩ :=
    C8_match_concatenation nearestFlat directRoute tState _ _ hR
  have hmap : ([⟨0, 0⟩, ⟨0, 1⟩, ⟨1, 1⟩] : List Point).map (nearestFlat tState) =
      ([1, 2, 4] : List Int).map some := by with_unfolding_all decide
  have hs : snaps = [1, 2, 4] :=
    (List.map_injective_iff.2 (Option.some_injective Int) (h1.symm.trans hmap))
  subst hs
  obtain ⟨-, -, hj⟩ := himp (fun a b path => directRoute_ends _ a b path)
  obtain ⟨n, pre, post, e1, e2, -⟩ := hj 1 (by decide) (by decide)
  exact ⟨n, pre, post, by simpa using e1, e2⟩

theorem parsePoint_of_comma (parseFloat : String → ℚ × Bool) (rawPoint : List Char)
    (h : 2 ≤ (splitOn ',' rawPoint).length) :
    parsePoint parseFloat rawPoint = some (pointOf parseFloat rawPoint) := by
  unfold parsePoint pointOf
  match hs : splitOn ',' rawPoint, h with
  | lat :: lon :: rest, _ => simp
  | [a], h => simp at h
  | [], h => simp at h

theorem mapOption_total {α β : Type} (f : α → Option β) (g : α → β) :
    ∀ l : List α, (∀ a ∈ l, f a = some (g a)) → mapOption f l = some (l.map g) := by
  intro l
  induction l with
  | nil => intro _; rfl
  | cons a rest ih =>
    intro h
    simp [mapOption, h a (List.mem_cons_self _ _),
      ih (fun b hb => h b (List.mem_cons_of_mem _ hb))]

/-- C9, as the code has it: for a request in which every `;`-separated piece
holds a comma, `GetMatch` hands `MapMatch` one point per piece, whose
coordinates are the values `ParseFloat` returned for the first two fields, the
parse errors being discarded; it answers 400 exactly when `MapMatch` returns an
error, which it does when there is a single piece, and otherwise answers with
what `MapMatch` produced. -/
theorem C9_GetMatch_requests (parseFloat : String → ℚ × Bool)
    (nn : State → Point → Option Int)
    (dijkstra : Graph → Int → Int → Except String (List Int)) (st : State)
    (pointsParam : String)
    (hcomma : ∀ piece ∈ splitOn ';' pointsParam.data, 2 ≤ (splitOn ',' piece).length) :
    parsePoints parseFloat pointsParam =
        some ((splitOn ';' pointsParam.data).map (pointOf parseFloat)) ∧
      GetMatch parseFloat nn dijkstra st pointsParam =
        respond (MapMatch nn dijkstra st
          ((splitOn ';' pointsParam.data).map (pointOf parseFloat))) ∧
      ((splitOn ';' pointsParam.data).length < 2 →
        GetMatch parseFloat nn dijkstra st pointsParam = .status 400) ∧
      (GetMatch parseFloat nn dijkstra st pointsParam = .status 400 ↔
        ∃ e, MapMatch nn dijkstra st
          ((splitOn ';' pointsParam.data).map (pointOf parseFloat)) = .error e) := by
  have hp : parsePoints parseFloat pointsParam =
      some ((splitOn ';' pointsParam.data).map (pointOf parseFloat)) :=
    mapOption_total _ _ _ (fun piece hpiece =>
      parsePoint_of_comma parseFloat piece (hcomma piece hpiece))
  have hg : GetMatch parseFloat nn dijkstra st pointsParam =
      respond (MapMatch nn dijkstra st
        ((splitOn ';' pointsParam.data).map (pointOf parseFloat))) := by
    unfold GetMatch
    simp only [hp]
  refine ⟨hp, hg, ?_, ?_⟩
  · intro hlen
    rw [hg]
    have hlt : ((splitOn ';' pointsParam.data).map (pointOf parseFloat)).length < 2 := by
      simpa using hlen
    rw [MapMatch_short nn dijkstra st _ hlt]
    rfl
  · rw [hg]
    cases MapMatch nn dijkstra st
        ((splitOn ';' pointsParam.data).map (pointOf parseFloat)) with
    | ok matched => simp [respond]
    | error e => simp [respond]
    | panic p => simp [respond]

/-- C9 at scenario S4: the single point `0,0` is answered with status 400. -/
theorem C9_witness :
    GetMatch parseFloatInt nearestFlat directRoute tState "0,0" = .status 400 :=
  (C9_GetMatch_requests parseFloatInt nearestFlat directRoute tState "0,0"
    (by decide)).2.2.1 (by decide)

/-- C9 fails as stated: the coordinates `x` and `y` do not parse, yet the
request `x,y;0,1` is matched from the point (0, 0) and answered with status 200;
and the request `1`, whose only piece has no comma, makes the handler panic on
the index `rawPointSplit[1]`, whatever the parser and the road network are. -/
theorem C9_counterexample :
    (parseFloatInt "x" = (0, false) ∧ parseFloatInt "y" = (0, false) ∧
      GetMatch parseFloatInt nearestFlat directRoute tState "x,y;0,1" =
        .json 200 [[0, 0], [1, 0]]) ∧
      (∀ (parseFloat : String → ℚ × Bool) (nn : State → Point → Option Int)
        (dijkstra : Graph → Int → Int → Except String (List Int)) (st : State),
        GetMatch parseFloat nn dijkstra st "1" = .panic) := by
  refine ⟨⟨by with_unfolding_all decide, by with_unfolding_all decide,
    by with_unfolding_all decide⟩, ?_⟩
  intro parseFloat nn dijkstra st
  rfl

theorem stacked_ops (dist : Point → Point → ℚ) (h0 : dist ⟨0, 0⟩ ⟨0, 0⟩ = 0) :
    ∃ st, ParseData dist stackedInput = some st ∧
      st.nodeGraph = Graph.empty.applyAll [.addNode 1, .addNode 2] := by
  obtain ⟨st, hp⟩ := Option.isSome_iff_exists.1
    (show (ParseData dist stackedInput).isSome = true by with_unfolding_all rfl)
  have hways : st.ways = [Way.mk 7 [1, 2] [("highway", "residential")]
      [1, 2] (0 + (dist ⟨0, 0⟩ ⟨0, 0⟩ + 0)) 25] :=
    map_eq_some_elim (f := (·.ways))
      (show (ParseData dist stackedInput).map (·.ways) = _ by with_unfolding_all rfl) hp
  have h1 : st.nodesIndex 1 = some (Node.mk 1 ⟨0, 0⟩ [] [0]) :=
    map_eq_some_elim (f := fun st => st.nodesIndex 1)
      (show (ParseData dist stackedInput).map (fun st => st.nodesIndex 1) = _ by
        with_unfolding_all rfl) hp
  have h2 : st.nodesIndex 2 = some (Node.mk 2 ⟨0, 0⟩ [] [0]) :=
    map_eq_some_elim (f := fun st => st.nodesIndex 2)
      (show (ParseData dist stackedInput).map (fun st => st.nodesIndex 2) = _ by
        with_unfolding_all rfl) hp
  obtain ⟨ops, -, hops, hg⟩ := ParseData_phases dist _ st hp
  refine ⟨st, hp, ?_⟩
  rw [hg]
  rw [hways] at hops
  simp [graphOps, wayOps, mapOption, h1, h2, walk, walkLoop, walkStep, travelTime,
    tagPresent, h0] at hops
  rw [← hops]

theorem travelTime_zero (segmentDist : ℚ) (MaxSpeed : Int)
    (h : travelTime segmentDist MaxSpeed = .fin 0) : segmentDist = 0 := by
  unfold travelTime at h
  split_ifs at h with h1 h2 h3
  simp only [Weight.fin.injEq, div_eq_zero_iff] at h
  rcases h with h | h
  · exact h
  · exact absurd (by exact_mod_cast h) h1

/-- C10, as the code has it: a step of the walk whose candidate travel time is
zero adds no edge, keeps `curNode` and keeps the accumulated `segmentDist`
without resetting it (with non-negative distances the cursor is unchanged), but
it does add the vertices `curNode` and `nextNode`, since both `AddNode` calls
precede the test; and in a built graph both endpoints of every edge are
vertices. -/
theorem C10_zero_time_step :
    (∀ (dist : Point → Point → ℚ) (way : Way) (c : Cursor) (prev nextNode : Node),
      0 < nextNode.Ways.length →
      travelTime (c.segmentDist + dist prev.Point nextNode.Point) way.MaxSpeed = .fin 0 →
        (walkStep dist way c prev nextNode).2 =
            [.addNode c.curNode.ID, .addNode nextNode.ID] ∧
          emittedEdges (walkStep dist way c prev nextNode).2 = [] ∧
          (walkStep dist way c prev nextNode).1.curNode = c.curNode ∧
          (walkStep dist way c prev nextNode).1.segmentDist =
            c.segmentDist + dist prev.Point nextNode.Point ∧
          (0 ≤ c.segmentDist → 0 ≤ dist prev.Point nextNode.Point →
            (walkStep dist way c prev nextNode).1 = c)) ∧
    (∀ (dist : Point → Point → ℚ) (input : List Element) (st : State),
      ParseData dist input = some st → ∀ u v w, st.nodeGraph.edges u v = some w →
        st.nodeGraph.nodes u = true ∧ st.nodeGraph.nodes v = true) := by
  constructor
  · intro dist way c prev nextNode hpos hzero
    have hstep : walkStep dist way c prev nextNode =
        ({ c with segmentDist := c.segmentDist + dist prev.Point nextNode.Point },
          [.addNode c.curNode.ID, .addNode nextNode.ID]) := by
      unfold walkStep
      simp only [gt_iff_lt, hpos, if_true, hzero]
    rw [hstep]
    refine ⟨rfl, rfl, rfl, rfl, ?_⟩
    intro hc hd
    have hsum := travelTime_zero _ _ hzero
    have hd0 : dist prev.Point nextNode.Point = 0 := by linarith
    simp [hd0]
  · intro dist input st h
    obtain ⟨ops, -, hops, hg⟩ := ParseData_phases dist input st h
    rw [hg]
    exact graphOps_preserves Closed dist st.nodesIndex st.ways ops
      (fun way _ c prev nextNode g hgc => walkStep_closed dist way c prev nextNode g hgc)
      hops Graph.empty (fun u v w he => by simp [Graph.empty] at he)

/-- C10 at two coincident nodes: the step adds the two vertices and no edge, and
the cursor stays where it was. -/
theorem C10_witness :
    (walkStep flatDist (Way.mk 7 [1, 2] [("highway", "residential")] [1, 2] 0 25)
        ⟨Node.mk 1 ⟨0, 0⟩ [] [0], 0⟩ (Node.mk 1 ⟨0, 0⟩ [] [0])
        (Node.mk 2 ⟨0, 0⟩ [] [0])).2 = [.addNode 1, .addNode 2] ∧
      (walkStep flatDist (Way.mk 7 [1, 2] [("highway", "residential")] [1, 2] 0 25)
        ⟨Node.mk 1 ⟨0, 0⟩ [] [0], 0⟩ (Node.mk 1 ⟨0, 0⟩ [] [0])
        (Node.mk 2 ⟨0, 0⟩ [] [0])).1 = ⟨Node.mk 1 ⟨0, 0⟩ [] [0], 0⟩ := by
  obtain ⟨h1, -, -, -, h5⟩ := C10_zero_time_step.1 flatDist
    (Way.mk 7 [1, 2] [("highway", "residential")] [1, 2] 0 25)
    ⟨Node.mk 1 ⟨0, 0⟩ [] [0], 0⟩ (Node.mk 1 ⟨0, 0⟩ [] [0]) (Node.mk 2 ⟨0, 0⟩ [] [0])
    (by decide) (by with_unfolding_all decide)
  exact ⟨h1, h5 (le_refl 0) (flatDist_nonneg _ _)⟩

/-- C10 fails as stated: on a way between two coincident nodes the only step has
zero travel time, yet both nodes become vertices of the graph, which has no
edge at all.  So for every distance function that is zero between coincident
points. -/
theorem C10_counterexample :
    (ParseData flatDist stackedInput).map
        (fun st => (st.nodeGraph.nodes 1, st.nodeGraph.nodes 2, st.nodeGraph.edges 1 2,
          st.nodeGraph.edges 2 1)) = some (true, true, none, none) ∧
      (∀ dist : Point → Point → ℚ, dist ⟨0, 0⟩ ⟨0, 0⟩ = 0 →
        ∃ st, ParseData dist stackedInput = some st ∧
          st.nodeGraph.nodes 1 = true ∧ st.nodeGraph.nodes 2 = true ∧
          ∀ u v, st.nodeGraph.edges u v = none) := by
  refine ⟨by with_unfolding_all decide, ?_⟩
  intro dist h0
  obtain ⟨st, hp, hg⟩ := stacked_ops dist h0
  refine ⟨st, hp, ?_, ?_, ?_⟩ <;> rw [hg] <;>
    simp [Graph.applyAll, Graph.apply, Graph.empty]

end GoMapMatch
